import Mathlib

/-!
A shallow embedding of the krangler ingestion pipeline (Python) in Lean 4.

Conventions of the embedding:
* Python bytes values are modelled as List Nat, each element a byte 0..255.
* Python str values are modelled as List Nat of character code points; for
  the ASCII paths manipulated here this coincides with their UTF-8 bytes.
* Machine integers are Nat with explicit reduction modulo 2 ^ 64 where the
  source relies on overflow (the hash primitives).
* Digests are carried as raw bytes on both sides of the index boundary: the
  hex encode/decode pair at the NDJSON boundary is a bijection and is
  modelled as the identity.
* External libraries are parameters: ooz.decompress is a parameter
  (decomp : List Nat -> Nat -> List Nat), hashlib.sha256 a parameter
  (H : List Nat -> List Nat), zstd compression a parameter where it occurs.
* Fallible Python code (exceptions) returns Option; none is any raised
  exception (or a hang of a while loop that cannot make progress, which is
  noted where it is modelled).
-/

namespace Krangler

/-- Association list lookup, first match wins (models a SQL point lookup or a
Python dict whose keys are unique). -/
def alookup {α β : Type} [DecidableEq α] : List (α × β) → α → Option β
  | [], _ => none
  | (k, v) :: rest, key => if k = key then some v else alookup rest key

/-- Python dict assignment d[k] = v: overwrite the value in place if the key
exists (keeping its insertion position), else append. -/
def dictInsert {α β : Type} [DecidableEq α] : List (α × β) → α → β → List (α × β)
  | [], k, v => [(k, v)]
  | (k', v') :: rest, k, v =>
    if k' = k then (k', v) :: rest else (k', v') :: dictInsert rest k v

/-- Little-endian u32 decode of the first four bytes; none on a short read
(struct.unpack error). -/
def readU32le : List Nat → Option (Nat × List Nat)
  | b0 :: b1 :: b2 :: b3 :: rest =>
    some (b0 + b1 * 2 ^ 8 + b2 * 2 ^ 16 + b3 * 2 ^ 24, rest)
  | _ => none

/-- Little-endian u64 decode of the first eight bytes. -/
def readU64le : List Nat → Option (Nat × List Nat)
  | b0 :: b1 :: b2 :: b3 :: b4 :: b5 :: b6 :: b7 :: rest =>
    some (b0 + b1 * 2 ^ 8 + b2 * 2 ^ 16 + b3 * 2 ^ 24 + b4 * 2 ^ 32
      + b5 * 2 ^ 40 + b6 * 2 ^ 48 + b7 * 2 ^ 56, rest)
  | _ => none

/-- Little-endian u32 encode (used to build concrete inputs). -/
def u32enc (n : Nat) : List Nat :=
  [n % 2 ^ 8, n / 2 ^ 8 % 2 ^ 8, n / 2 ^ 16 % 2 ^ 8, n / 2 ^ 24 % 2 ^ 8]

/-- Little-endian u64 encode (used to build concrete inputs). -/
def u64enc (n : Nat) : List Nat :=
  [n % 2 ^ 8, n / 2 ^ 8 % 2 ^ 8, n / 2 ^ 16 % 2 ^ 8, n / 2 ^ 24 % 2 ^ 8,
   n / 2 ^ 32 % 2 ^ 8, n / 2 ^ 40 % 2 ^ 8, n / 2 ^ 48 % 2 ^ 8, n / 2 ^ 56 % 2 ^ 8]

/-! ## Hash primitives (krangler/_murmur.py; FNV from the spec, 6.5) -/

/-- One 8-byte little-endian word of murmur input (bytes_to_long in
_murmur.py). -/
def bytes_to_long (bs : List Nat) : Nat :=
  (bs.enum.map (fun p => p.2 * 2 ^ (8 * p.1))).sum

/-- The 8-byte body words of the murmur input: data[0:off] in 8-byte steps,
off = (len / 8) * 8. -/
def murmurWords : List Nat → List Nat
  | b0 :: b1 :: b2 :: b3 :: b4 :: b5 :: b6 :: b7 :: rest =>
    bytes_to_long [b0, b1, b2, b3, b4, b5, b6, b7] :: murmurWords rest
  | _ => []

/-- The trailing 0..7 bytes after the 8-byte body. -/
def murmurTail (bs : List Nat) : List Nat := bs.drop (bs.length / 8 * 8)

/-- One body round of MurmurHash2-64A (the loop of murmur2_64a). -/
def murmurRound (m r h k0 : Nat) : Nat :=
  let k1 := k0 * m % 2 ^ 64
  let k2 := k1 ^^^ (k1 / 2 ^ r)
  let k3 := k2 * m % 2 ^ 64
  (h ^^^ k3) * m % 2 ^ 64

/-- The tail mix of murmur2_64a: the cascade of if length >= k xors, followed
by the multiply when at least one byte remains. -/
def murmurTailMix (m : Nat) (h : Nat) (tail : List Nat) : Nat :=
  let len := tail.length
  let h := if len ≥ 7 then h ^^^ tail.getD 6 0 * 2 ^ 48 else h
  let h := if len ≥ 6 then h ^^^ tail.getD 5 0 * 2 ^ 40 else h
  let h := if len ≥ 5 then h ^^^ tail.getD 4 0 * 2 ^ 32 else h
  let h := if len ≥ 4 then h ^^^ tail.getD 3 0 * 2 ^ 24 else h
  let h := if len ≥ 3 then h ^^^ tail.getD 2 0 * 2 ^ 16 else h
  let h := if len ≥ 2 then h ^^^ tail.getD 1 0 * 2 ^ 8 else h
  if len ≥ 1 then (h ^^^ tail.getD 0 0) * m % 2 ^ 64 else h

/-- MurmurHash2-64A over bytes, translated from krangler/_murmur.py
(m = 0xC6A4A7935BD1E995, r = 47, 64-bit wrapping arithmetic). -/
def murmur2_64a (data : List Nat) (seed : Nat) : Nat :=
  let m := 0xC6A4A7935BD1E995
  let r := 47
  let h0 := seed % 2 ^ 64 ^^^ (m * data.length % 2 ^ 64)
  let hBody := (murmurWords data).foldl (fun h k => murmurRound m r h k) h0
  let h1 := murmurTailMix m hBody (murmurTail data)
  let h2 := h1 ^^^ (h1 / 2 ^ r)
  let h3 := h2 * m % 2 ^ 64
  h3 ^^^ (h3 / 2 ^ r)

/-- Modelled from the spec: the krangler._fnv module is not under src/; the
spec (6.5) fixes FNV-1a-64 with offset basis 0xCBF29CE484222325 and prime
0x100000001B3, folded over the UTF-8 bytes with xor-then-multiply modulo
2 ^ 64. -/
def fnv1a64 (data : List Nat) : Nat :=
  data.foldl (fun h b => (h ^^^ b) * 0x100000001B3 % 2 ^ 64) 0xCBF29CE484222325

/-- Python str.lower restricted to the ASCII range, applied codepoint-wise
(all paths hashed by the pipeline are ASCII). -/
def asciiLower (s : List Nat) : List Nat :=
  s.map (fun c => if 65 ≤ c ∧ c ≤ 90 then c + 32 else c)

/-- The two path-hash algorithm variants of poe_util (PoE_3_11_2_Hash is the
legacy FNV one, PoE_3_21_2_Hash the modern murmur one). -/
inductive HasherKind : Type
  | legacy
  | modern
  deriving DecidableEq, Repr

/-- "++" as bytes, the suffix the legacy hasher appends. -/
def plusPlus : List Nat := [43, 43]

/-- PoE_3_11_2_Hash.hash_file_path: fnv1a64 of lowercase path plus "++". -/
def legacy_hash_file_path (p : List Nat) : Nat := fnv1a64 (asciiLower p ++ plusPlus)

/-- PoE_3_11_2_Hash.hash_dir_path: fnv1a64 of the path plus "++", without the
lowercase step. -/
def legacy_hash_dir_path (p : List Nat) : Nat := fnv1a64 (p ++ plusPlus)

/-- The seed PoE_3_21_2_Hash is constructed with. -/
def modernSeed : Nat := 0x1337b33f

/-- PoE_3_21_2_Hash.hash_file_path: murmur2_64a of the lowercase path. -/
def modern_hash_file_path (p : List Nat) : Nat := murmur2_64a (asciiLower p) modernSeed

/-- PoE_3_21_2_Hash.hash_dir_path: identical to the file variant. -/
def modern_hash_dir_path (p : List Nat) : Nat := murmur2_64a (asciiLower p) modernSeed

/-- hash_file_path dispatched on the selected variant. -/
def hash_file_path : HasherKind → List Nat → Nat
  | HasherKind.legacy, p => legacy_hash_file_path p
  | HasherKind.modern, p => modern_hash_file_path p

/-! ## Artifact store backends (krangler/store.py) -/

/-- The methods the ArtifactStore Protocol class body defines
(store.py lines 20-54). -/
def artifactStoreProtocolMethods : List String :=
  ["__init__", "__enter__", "__exit__", "index_writer", "index_reader",
   "list_missing_objects", "write_data", "read_data",
   "has_depot_fact", "set_depot_fact", "unset_depot_fact"]

/-- The methods class FilesystemStore defines (store.py lines 57-122). -/
def filesystemStoreMethods : List String :=
  ["__init__", "__enter__", "__exit__", "index_writer", "index_reader",
   "write_data", "read_data",
   "has_depot_fact", "set_depot_fact", "unset_depot_fact"]

/-- The methods class DatabaseStore defines (store.py lines 125-293). -/
def databaseStoreMethods : List String :=
  ["__init__", "__enter__", "__exit__", "write_data_bulk",
   "list_missing_objects", "index_writer", "index_reader",
   "write_data", "read_data",
   "has_depot_fact", "set_depot_fact", "unset_depot_fact"]

/-- Python attribute resolution for a method on an instance of a class with
one base: the class body first, then the base class body. -/
def classHasMethod (own base : List String) (name : String) : Bool :=
  own.contains name || base.contains name

/-- A row of the relational data table: (content_hash, stored bytes,
compression tag). content_hash is the primary key. -/
structure DataRow : Type where
  contentHash : List Nat
  data : List Nat
  compression : Option String
  deriving DecidableEq, Repr

/-- DatabaseStore.write_data_bulk's BulkWrite.store(addr, data): compress,
keep the smaller form, INSERT ... ON CONFLICT DO NOTHING into data.
compress is the external zstd compressor. -/
def dbBulkStore (compress : List Nat → List Nat) (tbl : List DataRow)
    (addr data : List Nat) : List DataRow :=
  let cdata := compress data
  let row :=
    if data.length > cdata.length then
      DataRow.mk addr cdata (some "zstd")
    else
      DataRow.mk addr data none
  if tbl.any (fun r => r.contentHash = addr) then tbl else tbl ++ [row]

/-- The relational index table keyed by its composite primary key
(gid, kind), a partial map as the PK makes rows unique. A stored row is
(data bytes, compression tag). -/
def IndexTable : Type := Nat × String → Option (List Nat × String)

/-- DatabaseStore.index_writer's closing INSERT: VALUES (manifest, kind,
data, zstd) ON CONFLICT ON CONSTRAINT index_pkey DO UPDATE. The depot
argument is accepted and unused. -/
def db_index_writer (_depot : Nat) (manifest : Nat) (kind : String)
    (data : List Nat) (tbl : IndexTable) : IndexTable :=
  fun key => if key = (manifest, kind) then some (data, "zstd") else tbl key

/-- DatabaseStore.index_reader's SELECT: WHERE gid = manifest AND kind = kind
AND compression = zstd; none when fetchone finds no row (the unpacking then
raises). The depot argument is accepted and unused. -/
def db_index_reader (_depot : Nat) (manifest : Nat) (kind : String)
    (tbl : IndexTable) : Option (List Nat) :=
  match tbl (manifest, kind) with
  | some (data, comp) => if comp = "zstd" then some data else none
  | none => none

/-! ## Outer bundle container (CompressedBundle, krangler/ingest_bundled.py
lines 54-81) -/

/-- The fields of CompressedBundle kept by its constructor (the duplicate
sizes, first_file_encode, unknown words and the 16 reserved bytes are read
and dropped, as in the source). payload is what follows data_start. -/
structure CompressedBundle : Type where
  uncompressed_size : Nat
  total_payload_size : Nat
  uncompressed_block_granularity : Nat
  block_sizes : List Nat
  payload : List Nat
  deriving DecidableEq, Repr

/-- struct.iter_unpack of little-endian u32 words over a whole buffer whose
length is a multiple of four. -/
def parseU32s : List Nat → List Nat
  | b0 :: b1 :: b2 :: b3 :: rest =>
    (b0 + b1 * 2 ^ 8 + b2 * 2 ^ 16 + b3 * 2 ^ 24) :: parseU32s rest
  | _ => []

/-- CompressedBundle.__init__ on a byte stream: three u32s, then
u32 u32 u64 u64 u32 u32, a 16-byte seek, block_count u32 block sizes
(iter_unpack reads what a short buffer holds, erring unless the length is a
multiple of four), and the remaining bytes from data_start on. -/
def parseCompressedBundle (bs : List Nat) : Option CompressedBundle := do
  let (usize, bs) ← readU32le bs
  let (tps, bs) ← readU32le bs
  let (_headPayloadSize, bs) ← readU32le bs
  let (_firstFileEncode, bs) ← readU32le bs
  let (_unk10, bs) ← readU32le bs
  let (_usize2, bs) ← readU64le bs
  let (_tps2, bs) ← readU64le bs
  let (blockCount, bs) ← readU32le bs
  let (gran, bs) ← readU32le bs
  if bs.length < 16 then none else
  let bs := bs.drop 16
  let chunk := bs.take (4 * blockCount)
  if chunk.length % 4 ≠ 0 then none else
  some (CompressedBundle.mk usize tps gran (parseU32s chunk) (bs.drop (4 * blockCount)))

/-- The loop body of decompress_all: walk the block size list with its index,
splitting payload sequentially; every block but the last is decompressed to
block_granularity bytes, the last to uncompressed_size - i * granularity.
decomp stands for ooz.decompress. -/
def decompress_blocks (decomp : List Nat → Nat → List Nat)
    (gran totalUsize : Nat) : List Nat → Nat → List Nat → List Nat
  | [], _, _ => []
  | bsize :: rest, i, payload =>
    let usize := if rest ≠ [] then gran else totalUsize - i * gran
    decomp (payload.take bsize) usize
      ++ decompress_blocks decomp gran totalUsize rest (i + 1) (payload.drop bsize)

/-- CompressedBundle.decompress_all. -/
def CompressedBundle.decompress_all (decomp : List Nat → Nat → List Nat)
    (b : CompressedBundle) : List Nat :=
  decompress_blocks decomp b.uncompressed_block_granularity b.uncompressed_size
    b.block_sizes 0 b.payload

/-- The compressed bytes of block i: payload cut at the running sum of the
preceding block sizes (the sequential fh.read calls of the loop). -/
def blockChunk (sizes : List Nat) (payload : List Nat) (i : Nat) : List Nat :=
  (payload.drop ((sizes.take i).sum)).take (sizes.getD i 0)

/-- The uncompressed size requested for block i of n. -/
def blockUsize (gran totalUsize n i : Nat) : Nat :=
  if i + 1 ≠ n then gran else totalUsize - i * gran

/-! ## Index bundle structure (BundleIndex, ingest_bundled.py lines 84-121) -/

structure BundleRecord : Type where
  name : List Nat
  uncompressed_size : Nat
  deriving DecidableEq, Repr

structure FileRecord : Type where
  path_hash : Nat
  bundle_index : Nat
  file_offset : Nat
  file_size : Nat
  deriving DecidableEq, Repr

structure PathRep : Type where
  hash : Nat
  offset : Nat
  size : Nat
  recursive_size : Nat
  deriving DecidableEq, Repr

/-- The parsed index bundle: bundle records, inner file records, path
representation regions and the trailing path_comp bytes. -/
structure BundleIndex : Type where
  bundles : List BundleRecord
  files : List FileRecord
  path_reps : List PathRep
  path_comp : List Nat
  deriving DecidableEq, Repr

/-- The bundle-record loop: u32 name length, that many name bytes, u32
uncompressed size, repeated count times. -/
def parseBundleRecs : Nat → List Nat → Option (List BundleRecord × List Nat)
  | 0, bs => some ([], bs)
  | n + 1, bs => do
    let (nameLen, bs) ← readU32le bs
    if bs.length < nameLen then none else
    let name := bs.take nameLen
    let bs := bs.drop nameLen
    let (usize, bs) ← readU32le bs
    let (rest, bs) ← parseBundleRecs n bs
    some (BundleRecord.mk name usize :: rest, bs)

/-- The file-record loop: u64 path hash, u32 bundle index, u32 offset,
u32 size, repeated count times. -/
def parseFileRecs : Nat → List Nat → Option (List FileRecord × List Nat)
  | 0, bs => some ([], bs)
  | n + 1, bs => do
    let (ph, bs) ← readU64le bs
    let (bidx, bs) ← readU32le bs
    let (off, bs) ← readU32le bs
    let (sz, bs) ← readU32le bs
    let (rest, bs) ← parseFileRecs n bs
    some (FileRecord.mk ph bidx off sz :: rest, bs)

/-- The path-rep loop: u64 hash, u32 offset, u32 size, u32 recursive size,
repeated count times. -/
def parsePathReps : Nat → List Nat → Option (List PathRep × List Nat)
  | 0, bs => some ([], bs)
  | n + 1, bs => do
    let (h, bs) ← readU64le bs
    let (off, bs) ← readU32le bs
    let (sz, bs) ← readU32le bs
    let (rsz, bs) ← readU32le bs
    let (rest, bs) ← parsePathReps n bs
    some (PathRep.mk h off sz rsz :: rest, bs)

/-- BundleIndex.__init__: decompress the outer container, then read the
bundle table, file table, path-rep table and keep the rest as path_comp.
decomp stands for ooz.decompress. -/
def parseBundleIndex (decomp : List Nat → Nat → List Nat)
    (indexData : List Nat) : Option BundleIndex := do
  let outer ← parseCompressedBundle indexData
  let fh := outer.decompress_all decomp
  let (bundleCount, fh) ← readU32le fh
  let (bundles, fh) ← parseBundleRecs bundleCount fh
  let (fileCount, fh) ← readU32le fh
  let (files, fh) ← parseFileRecs fileCount fh
  let (repCount, fh) ← readU32le fh
  let (reps, fh) ← parsePathReps repCount fh
  some (BundleIndex.mk bundles files reps fh)

/-- BundleRecord.bin_path: the bytes of "Bundles2/" ++ name ++ ".bundle.bin". -/
def bin_path (name : List Nat) : List Nat :=
  [66, 117, 110, 100, 108, 101, 115, 50, 47] ++ name
    ++ [46, 98, 117, 110, 100, 108, 101, 46, 98, 105, 110]

/-! ## Path reconstruction (ingest_bundled.py lines 124-166) -/

/-- cut_ntmbs: split at the first NUL, returning the prefix and the bytes
after the NUL; none when no NUL occurs (the ValueError). -/
def cut_ntmbs : List Nat → Option (List Nat × List Nat)
  | [] => none
  | b :: rest =>
    if b = 0 then some ([], rest)
    else match cut_ntmbs rest with
      | some (s, r) => some (b :: s, r)
      | none => none

/-- The while loop of generate_paths over one region slice, carrying the
base_phase flag and the bases array; the result is the emitted strings, in
order, as byte lists (the UTF-8 decode is a bijection on the valid input and
is modelled as the identity). none is a struct or decode error: a nonempty
slice shorter than a command word, or a string with no NUL terminator. The
loop consumes at least one byte per iteration, so any fuel at least the
slice length runs it to completion (generate_paths_go_fuel); the
fuel-exhausted branch is unreachable from such a start. -/
def generate_paths_go : Nat → List Nat → Bool → List (List Nat) → Option (List (List Nat))
  | _, [], _, _ => some []
  | 0, _ :: _, _, _ => none
  | fuel + 1, b0 :: b1 :: b2 :: b3 :: rest, base_phase, bases =>
    let cmd := b0 + b1 * 2 ^ 8 + b2 * 2 ^ 16 + b3 * 2 ^ 24
    if cmd = 0 then
      generate_paths_go fuel rest (!base_phase) (if base_phase then bases else [])
    else
      match cut_ntmbs rest with
      | none => none
      | some (s, rest') =>
        let s' := if cmd ≤ bases.length then bases.getD (cmd - 1) [] ++ s else s
        if base_phase then
          generate_paths_go fuel rest' base_phase (bases ++ [s'])
        else
          match generate_paths_go fuel rest' base_phase bases with
          | none => none
          | some out => some (s' :: out)
  | _ + 1, _, _, _ => none

/-- One region decode, started with enough fuel. -/
def decode_paths (slice : List Nat) (phase : Bool) (bases : List (List Nat)) :
    Option (List (List Nat)) :=
  generate_paths_go slice.length slice phase bases

/-- generate_paths(rep, path_view) with the default recurse=False: decode
the region path_view[rep.offset : rep.offset + rep.size] starting outside
base phase with no bases. -/
def generate_paths (path_view : List Nat) (rep : PathRep) : Option (List (List Nat)) :=
  decode_paths ((path_view.drop rep.offset).take rep.size) false []

/-! ## Path hash table and algorithm detection (ingest_bundled.py
lines 131-196) -/

/-- The failure kinds of generate_path_hash_table: the RuntimeError for an
unrecognized root hash, or any parse or decode error on the path data. -/
inductive PhtError : Type
  | unknownHashAlgorithm
  | dataError
  deriving DecidableEq, Repr

/-- The PathHashTable dataclass: both dicts as insertion-ordered association
lists, plus the chosen input and output hashers. -/
structure PathHashTable : Type where
  path_by_ihash : List (Nat × List Nat)
  ohash_by_ihash : List (Nat × Nat)
  ihasher : HasherKind
  ohasher : Option HasherKind
  deriving DecidableEq, Repr

/-- "Art" as bytes. -/
def artBytes : List Nat := [65, 114, 116]

/-- The dict-filling loop of generate_path_hash_table: for each emitted
string s, ihash := ihasher.hash_file_path(s), ohash := ohasher's hash when
set else ihash, and both dicts are assigned at key ihash. -/
def phtFill (ih : HasherKind) (oh : Option HasherKind) :
    List (List Nat) → PathHashTable → PathHashTable
  | [], t => t
  | s :: rest, t =>
    let ihash := hash_file_path ih s
    let ohash := match oh with
      | some k => hash_file_path k s
      | none => ihash
    phtFill ih oh rest
      { t with
        path_by_ihash := dictInsert t.path_by_ihash ihash s,
        ohash_by_ihash := dictInsert t.ohash_by_ihash ihash ohash }

/-- generate_path_hash_table: decompress path_comp as an outer bundle, probe
the rep hashes with hash_dir("Art") under the legacy then the modern
variant, and fill the dicts from every region's decoded strings. -/
def generate_path_hash_table (decomp : List Nat → Nat → List Nat)
    (index : BundleIndex) : Except PhtError PathHashTable :=
  match parseCompressedBundle index.path_comp with
  | none => Except.error PhtError.dataError
  | some pc =>
    let path_view := pc.decompress_all decomp
    let rep_hashes := index.path_reps.map (fun x => x.hash)
    let choice : Option (HasherKind × Option HasherKind) :=
      if rep_hashes.contains (legacy_hash_dir_path artBytes) then
        some (HasherKind.legacy, some HasherKind.modern)
      else if rep_hashes.contains (modern_hash_dir_path artBytes) then
        some (HasherKind.modern, none)
      else none
    match choice with
    | none => Except.error PhtError.unknownHashAlgorithm
    | some (ih, oh) =>
      match index.path_reps.mapM (generate_paths path_view) with
      | none => Except.error PhtError.dataError
      | some pathLists =>
        Except.ok (phtFill ih oh pathLists.flatten
          (PathHashTable.mk [] [] ih oh))

/-! ## Bundle grouping (ingest_bundled.py lines 288-308) -/

/-- 1 GiB, the max_size of group_bundles. -/
def groupMaxSize : Nat := 1 * 2 ^ 30

/-- 100 000, the max_count of group_bundles. -/
def groupMaxCount : Nat := 100 * 10 ^ 3

/-- The loop of group_bundles over (uncompressed_size, inner-file count)
pairs, one per outer bundle in index order: when the accumulators already
meet a budget the open group is flushed, then the bundle is always appended
to the open group. bid numbers the bundles. -/
def group_bundles_go : List (Nat × Nat) → List Nat → Nat → Nat → Nat →
    List (List Nat × Nat × Nat)
  | [], accGroup, accSize, accCount, _bid =>
    if accGroup.length ≠ 0 then [(accGroup, accSize, accCount)] else []
  | (usize, fcount) :: rest, accGroup, accSize, accCount, bid =>
    if accSize ≥ groupMaxSize ∨ accCount ≥ groupMaxCount then
      (accGroup, accSize, accCount)
        :: group_bundles_go rest [bid] usize fcount (bid + 1)
    else
      group_bundles_go rest (accGroup ++ [bid]) (accSize + usize)
        (accCount + fcount) (bid + 1)

/-- group_bundles: bundlesInfo pairs each bundle's uncompressed_size with
len(l2b[bid]), in bundle order. -/
def group_bundles (bundlesInfo : List (Nat × Nat)) : List (List Nat × Nat × Nat) :=
  group_bundles_go bundlesInfo [] 0 0 0

/-! ## Bundled ingest (ingest_bundled.py lines 199-375) -/

/-- A row of a loose or bundled NDJSON index. The digest is raw bytes (the
64-char hex form at the boundary is modelled as the identity bijection);
phash is the integer fingerprint. -/
structure LooseRow : Type where
  path : List Nat
  sha256 : List Nat
  phash : Nat
  size : Nat
  deriving DecidableEq, Repr

/-- A bundled-index row as written by writerow (sha256 raw bytes, path,
integer phash, size). -/
structure IndexRow : Type where
  sha256 : List Nat
  path : List Nat
  phash : Nat
  size : Nat
  deriving DecidableEq, Repr

/-- An extent-map key: (bundle digest, file offset, file size). -/
abbrev ExtKey : Type := List Nat × Nat × Nat

/-- "Bundles2/_.index.bin" as bytes. -/
def indexBinPath : List Nat :=
  [66, 117, 110, 100, 108, 101, 115, 50, 47, 95, 46, 105, 110, 100, 101,
   120, 46, 98, 105, 110]

/-- ".bundle.bin" as bytes. -/
def bundleBinSuffix : List Nat := [46, 98, 117, 110, 100, 108, 101, 46, 98, 105, 110]

/-- The loose-index scan of ingest_bundled (lines 201-210): the digest of
the last row whose path is exactly Bundles2/_.index.bin, and the dict from
each *.bundle.bin path to that row's digest. -/
def scanLoose : List LooseRow → Option (List Nat) × List (List Nat × List Nat)
  | [] => (none, [])
  | row :: rest =>
    let (addr, bbp) := scanLoose rest
    if row.path = indexBinPath then
      (match addr with | some a => some a | none => some row.sha256, bbp)
    else if bundleBinSuffix.isSuffixOf row.path then
      (addr, dictInsert bbp row.path row.sha256)
    else (addr, bbp)

/-- The content-addressed data store during a run: its state at ingest start
as a point-lookup function, plus the objects inserted by this run. -/
structure StoreState : Type where
  base : List Nat → Option (List Nat)
  added : List (List Nat × List Nat)

/-- read_data: this run's inserts shadow nothing (content-addressed), they
only extend the base. -/
def StoreState.read (st : StoreState) (addr : List Nat) : Option (List Nat) :=
  match alookup st.added addr with
  | some d => some d
  | none => st.base addr

/-- Whether list_missing_objects would not report addr. -/
def StoreState.present (st : StoreState) (addr : List Nat) : Bool :=
  (st.read addr).isSome

/-- The extent map view: the puts committed by this run (last write wins)
over the database state at run start. -/
def bemView (base : ExtKey → Option (List Nat)) (over : List (ExtKey × List Nat))
    (k : ExtKey) : Option (List Nat) :=
  match alookup over.reverse k with
  | some v => some v
  | none => base k

/-- An Object as enqueued in the bundled ingest: materialized bytes and the
declared size. -/
structure QueueObj : Type where
  data : List Nat
  size : Nat
  deriving DecidableEq, Repr

/-- BatchQueue state (store.py lines 303-345). -/
structure QueueState : Type where
  size_budget : Option Nat
  count_budget : Option Nat
  size_acc : Nat
  count_acc : Nat
  objects : List (List Nat × QueueObj)

/-- BatchQueue.flush: when forced or a budget is met, bulk-query the store
for the missing addresses among the queued objects and insert exactly those
(write_data_bulk with on-conflict-ignore), then clear the queue. Returns the
queue, the store and the uploads performed. -/
def batch_queue_flush (q : QueueState) (store : StoreState) (force : Bool) :
    QueueState × StoreState × List (List Nat × List Nat) :=
  let above_size := match q.size_budget with
    | some b => q.size_acc ≥ b
    | none => false
  let above_count := match q.count_budget with
    | some b => q.count_acc ≥ b
    | none => false
  if force || above_size || above_count then
    let missing := (q.objects.map Prod.fst).filter (fun a => !store.present a)
    let ups := missing.map (fun a => (a, ((alookup q.objects a).getD (QueueObj.mk [] 0)).data))
    ({ q with size_acc := 0, count_acc := 0, objects := [] },
     { store with added := store.added ++ ups }, ups)
  else (q, store, [])

/-- BatchQueue.store_one with a known size: accumulate the budgets, assign
the object under its address, then flush without force. -/
def batch_queue_store_one (q : QueueState) (store : StoreState)
    (addr : List Nat) (obj : QueueObj) :
    QueueState × StoreState × List (List Nat × List Nat) :=
  let q := { q with size_acc := q.size_acc + obj.size, count_acc := q.count_acc + 1,
                    objects := dictInsert q.objects addr obj }
  batch_queue_flush q store false

/-- The bdata thunk of the group loop: read the outer bundle's blob and
decompress it; none when the blob is absent (read_data returned None) or
the container is malformed. -/
def materializeBundle (decomp : List Nat → Nat → List Nat) (store : StoreState)
    (bhash : List Nat) : Option (List Nat) :=
  match store.read bhash with
  | none => none
  | some blob =>
    (parseCompressedBundle blob).map (fun cb => cb.decompress_all decomp)

/-- The accumulator of the first pass over a group: the new extent-map
tuples in append order, found_fhashes_bin, the index rows written, and
datafiles (per-bundle cache, none while still a thunk). -/
structure GroupState : Type where
  new_bem : List (ExtKey × List Nat)
  found : List (List Nat × (Nat × Nat × Nat))
  rows : List IndexRow
  datafiles : List (Nat × Option (List Nat))

/-- The walrus truthiness of the extent-map lookup: an empty cached value
counts as a miss. -/
def bemTruthy (v : Option (List Nat)) : Option (List Nat) :=
  match v with
  | some f => if f = [] then none else some f
  | none => none

/-- The tail of the frec loop body: note the digest in found_fhashes_bin and
write one index row, resolving the path and its output fingerprint in the
path table (a missing key is the Python KeyError). -/
def pass1_record (pht : PathHashTable) (bid : Nat) (frec : FileRecord)
    (found : List (List Nat × (Nat × Nat × Nat))) (rows : List IndexRow)
    (cache2 : Option (List Nat)) (newBem2 : List (ExtKey × List Nat))
    (fhash : List Nat) :
    Option (Option (List Nat) × List (ExtKey × List Nat) ×
      List (List Nat × (Nat × Nat × Nat)) × List IndexRow) :=
  match alookup pht.path_by_ihash frec.path_hash with
  | none => none
  | some path =>
    match alookup pht.ohash_by_ihash frec.path_hash with
    | none => none
    | some ohash =>
      some (cache2, newBem2,
        dictInsert found fhash (bid, frec.file_offset, frec.file_size),
        rows ++ [IndexRow.mk fhash path ohash frec.file_size])

/-- One iteration of the frec loop: on a truthy extent-map hit reuse the
cached digest; on a miss materialize the bundle payload at most once, slice
it and hash the slice with H (sha256), queueing the new extent tuple. -/
def pass1_step (H : List Nat → List Nat) (decomp : List Nat → Nat → List Nat)
    (store : StoreState) (bem : ExtKey → Option (List Nat)) (pht : PathHashTable)
    (bid : Nat) (bhash : List Nat) (frec : FileRecord)
    (cache : Option (List Nat)) (newBem : List (ExtKey × List Nat))
    (found : List (List Nat × (Nat × Nat × Nat))) (rows : List IndexRow) :
    Option (Option (List Nat) × List (ExtKey × List Nat) ×
      List (List Nat × (Nat × Nat × Nat)) × List IndexRow) :=
  match bemTruthy (bem (bhash, frec.file_offset, frec.file_size)) with
  | some fhash => pass1_record pht bid frec found rows cache newBem fhash
  | none =>
    match (match cache with
      | some d => some d
      | none => materializeBundle decomp store bhash) with
    | none => none
    | some bdata =>
      pass1_record pht bid frec found rows (some bdata)
        (newBem ++ [((bhash, frec.file_offset, frec.file_size),
          H ((bdata.drop frec.file_offset).take frec.file_size))])
        (H ((bdata.drop frec.file_offset).take frec.file_size))

def pass1_frecs (H : List Nat → List Nat) (decomp : List Nat → Nat → List Nat)
    (store : StoreState) (bem : ExtKey → Option (List Nat)) (pht : PathHashTable)
    (bid : Nat) (bhash : List Nat) :
    List FileRecord → Option (List Nat) → List (ExtKey × List Nat) →
    List (List Nat × (Nat × Nat × Nat)) → List IndexRow →
    Option (Option (List Nat) × List (ExtKey × List Nat) ×
      List (List Nat × (Nat × Nat × Nat)) × List IndexRow)
  | [], cache, newBem, found, rows => some (cache, newBem, found, rows)
  | frec :: rest, cache, newBem, found, rows =>
    match pass1_step H decomp store bem pht bid bhash frec cache newBem found rows with
    | none => none
    | some (cache2, newBem2, found2, rows2) =>
      pass1_frecs H decomp store bem pht bid bhash rest cache2 newBem2 found2 rows2

/-- The outer bid loop of the first pass (lines 316-351): resolve the
bundle's blob digest through bundle_by_path and run the frec loop with a
fresh thunk, recording the final cache in datafiles. -/
def pass1_bids (H : List Nat → List Nat) (decomp : List Nat → Nat → List Nat)
    (store : StoreState) (bem : ExtKey → Option (List Nat)) (pht : PathHashTable)
    (bundles : List BundleRecord) (bundle_by_path : List (List Nat × List Nat))
    (l2b : List (List FileRecord)) :
    List Nat → GroupState → Option GroupState
  | [], st => some st
  | bid :: rest, st =>
    match bundles.get? bid with
    | none => none
    | some brec =>
      match l2b.get? bid with
      | none => none
      | some frecs =>
        match alookup bundle_by_path (bin_path brec.name) with
        | none => none
        | some bhash =>
          match pass1_frecs H decomp store bem pht bid bhash frecs none
              st.new_bem st.found st.rows with
          | none => none
          | some (cache, newBem, found, rows) =>
            pass1_bids H decomp store bem pht bundles bundle_by_path l2b rest
              (GroupState.mk newBem found rows (dictInsert st.datafiles bid cache))

/-- Lexicographic comparison of byte strings (Python bytes ordering). -/
def bytesLe : List Nat → List Nat → Bool
  | [], _ => true
  | _ :: _, [] => false
  | a :: as_, b :: bs =>
    if a < b then true else if b < a then false else bytesLe as_ bs

/-- The ordering of the phase-2 work list: ascending on
((bid, start, size), addr). -/
def orderedLe (x y : (Nat × Nat × Nat) × List Nat) : Bool :=
  let ((a1, a2, a3), aa) := x
  let ((b1, b2, b3), ba) := y
  if a1 ≠ b1 then a1 < b1
  else if a2 ≠ b2 then a2 < b2
  else if a3 ≠ b3 then a3 < b3
  else bytesLe aa ba

/-- Insertion into a sorted list, stable (a new element goes before the
first element it compares at-most to). -/
def insertSorted {α : Type} (le : α → α → Bool) (x : α) : List α → List α
  | [] => [x]
  | y :: rest => if le x y then x :: y :: rest else y :: insertSorted le x rest

/-- Python sorted as a stable insertion sort. -/
def sortByBool {α : Type} (le : α → α → Bool) (l : List α) : List α :=
  l.foldr (insertSorted le) []

/-- The second pass over a group (lines 358-369): for each missing object in
sorted order, take the bundle's cached payload (materializing it now if the
first pass never did), slice it and hand the slice to the batch queue. -/
def pass2_go (decomp : List Nat → Nat → List Nat)
    (bundles : List BundleRecord) (bundle_by_path : List (List Nat × List Nat)) :
    List ((Nat × Nat × Nat) × List Nat) → List (Nat × Option (List Nat)) →
    QueueState → StoreState → List (List Nat × List Nat) →
    Option (List (Nat × Option (List Nat)) × QueueState × StoreState ×
      List (List Nat × List Nat))
  | [], datafiles, q, store, ups => some (datafiles, q, store, ups)
  | ((bid, start, size), addr) :: rest, datafiles, q, store, ups =>
    match alookup datafiles bid with
    | none => none
    | some cache =>
      let bdata? := match cache with
        | some d => some d
        | none =>
          match bundles.get? bid with
          | none => none
          | some brec =>
            match alookup bundle_by_path (bin_path brec.name) with
            | none => none
            | some bhash => materializeBundle decomp store bhash
      match bdata? with
      | none => none
      | some bdata =>
        let slice := (bdata.drop start).take size
        let (q, store, newUps) :=
          batch_queue_store_one q store addr (QueueObj.mk slice size)
        pass2_go decomp bundles bundle_by_path rest
          (dictInsert datafiles bid (some bdata)) q store (ups ++ newUps)

/-- One iteration of the group loop (lines 311-372): first pass, commit of
the new extent tuples, bulk missing query, sorted second pass. Returns the
extent-map overlay, the store, the queue, the rows written and the uploads
performed. -/
def process_group (H : List Nat → List Nat) (decomp : List Nat → Nat → List Nat)
    (pht : PathHashTable) (bundles : List BundleRecord)
    (bundle_by_path : List (List Nat × List Nat)) (l2b : List (List FileRecord))
    (bemBase : ExtKey → Option (List Nat)) (membs : List Nat)
    (bemOver : List (ExtKey × List Nat)) (store : StoreState) (q : QueueState) :
    Option (List (ExtKey × List Nat) × StoreState × QueueState ×
      List IndexRow × List (List Nat × List Nat)) := do
  let st ← pass1_bids H decomp store (bemView bemBase bemOver) pht bundles
    bundle_by_path l2b membs (GroupState.mk [] [] [] [])
  let bemOver := bemOver ++ st.new_bem
  let missing := (st.found.map Prod.fst).filter (fun a => !store.present a)
  let work ← missing.mapM (fun a => (alookup st.found a).map (fun t => (t, a)))
  let ordered := sortByBool orderedLe work
  let (_, q, store, ups) ←
    pass2_go decomp bundles bundle_by_path ordered st.datafiles q store []
  some (bemOver, store, q, st.rows, ups)

/-- The fold of the group loop over all groups. -/
def process_groups (H : List Nat → List Nat) (decomp : List Nat → Nat → List Nat)
    (pht : PathHashTable) (bundles : List BundleRecord)
    (bundle_by_path : List (List Nat × List Nat)) (l2b : List (List FileRecord))
    (bemBase : ExtKey → Option (List Nat)) :
    List (List (Nat) × Nat × Nat) →
    List (ExtKey × List Nat) → StoreState → QueueState →
    List IndexRow → List (List Nat × List Nat) →
    Option (List (ExtKey × List Nat) × StoreState × QueueState ×
      List IndexRow × List (List Nat × List Nat))
  | [], bemOver, store, q, rows, ups => some (bemOver, store, q, rows, ups)
  | (membs, _, _) :: rest, bemOver, store, q, rows, ups => do
    let (bemOver, store, q, newRows, newUps) ←
      process_group H decomp pht bundles bundle_by_path l2b bemBase membs
        bemOver store q
    process_groups H decomp pht bundles bundle_by_path l2b bemBase rest
      bemOver store q (rows ++ newRows) (ups ++ newUps)

/-- The stable sort of the file records by (bundle_index, file_offset,
file_size). -/
def fileRecLe (a b : FileRecord) : Bool :=
  if a.bundle_index ≠ b.bundle_index then a.bundle_index < b.bundle_index
  else if a.file_offset ≠ b.file_offset then a.file_offset < b.file_offset
  else a.file_size ≤ b.file_size

/-- l2b: one bucket per bundle record; appending a record whose
bundle_index is out of range is the Python IndexError. -/
def bucket_l2b : List FileRecord → List (List FileRecord) →
    Option (List (List FileRecord))
  | [], acc => some acc
  | f :: rest, acc =>
    if f.bundle_index < acc.length then
      bucket_l2b rest (acc.set f.bundle_index (acc.getD f.bundle_index [] ++ [f]))
    else none

/-- The observable effects of one bundled ingest run: the bundled index's
rows when the atomic writer was opened and closed successfully (none when
the run returned before opening it), the extent-map tuples written, and the
objects inserted into the data store. -/
structure Effects : Type where
  indexWritten : Option (List IndexRow)
  bemPuts : List (ExtKey × List Nat)
  uploads : List (List Nat × List Nat)
  deriving DecidableEq, Repr

/-- ingest_bundled (lines 199-375): scan the loose index; return with no
effect when no Bundles2/_.index.bin digest was seen (Python truthiness
treats an empty digest as unseen); otherwise fetch and parse the index
bundle, sort and bucket the file records, build the path table, partition
into groups, process each and flush the queue. H stands for hashlib.sha256,
decomp for ooz.decompress. none is a raised exception. -/
def ingest_bundled (H : List Nat → List Nat) (decomp : List Nat → Nat → List Nat)
    (looseRows : List LooseRow) (storeBase : List Nat → Option (List Nat))
    (bemBase : ExtKey → Option (List Nat)) : Option Effects :=
  let (indexAddr, bundle_by_path) := scanLoose looseRows
  match indexAddr with
  | none => some (Effects.mk none [] [])
  | some addr =>
    if addr = [] then some (Effects.mk none [] []) else do
      let store : StoreState := StoreState.mk storeBase []
      let indexData ← store.read addr
      let index ← parseBundleIndex decomp indexData
      let l2 := sortByBool fileRecLe index.files
      let l2b ← bucket_l2b l2 (List.replicate index.bundles.length [])
      let pht ← (generate_path_hash_table decomp index).toOption
      let bundlesInfo := (index.bundles.zip l2b).map
        (fun p => (p.1.uncompressed_size, p.2.length))
      let groups := group_bundles bundlesInfo
      let q : QueueState := QueueState.mk (some (200 * 2 ^ 20)) (some (50 * 1000)) 0 0 []
      let (bemOver, store, q, rows, ups) ←
        process_groups H decomp pht index.bundles bundle_by_path l2b bemBase
          groups [] store q [] []
      let (_, _, finalUps) := batch_queue_flush q store true
      some (Effects.mk (some rows) bemOver (ups ++ finalUps))

/-! ## GGPK pack parser (krangler/ggpk.py) -/

/-- A PDIR record as kept by the scanner: name as UTF-16 code units decoded
to code points, the stored digest, and the child offsets. -/
structure PackDir : Type where
  rec_len : Nat
  name : List Nat
  sha256 : List Nat
  children : List Nat
  deriving DecidableEq, Repr

/-- A FILE record as kept by the scanner. -/
structure PackFile : Type where
  rec_len : Nat
  name : List Nat
  sha256 : List Nat
  data_offset : Nat
  data_size : Nat
  deriving DecidableEq, Repr

/-- A FREE record as kept by the scanner. -/
structure PackFree : Type where
  rec_len : Nat
  next_free : Nat
  data_offset : Nat
  data_size : Nat
  deriving DecidableEq, Repr

/-- PackSource state after the linear scan: the three chunk dicts keyed by
offset (in scan order), the child-to-parent back edges and the root offset
(none when no PDIR matched the header children). -/
structure PackSource : Type where
  dirs : List (Nat × PackDir)
  files : List (Nat × PackFile)
  frees : List (Nat × PackFree)
  parents : List (Nat × Nat)
  rootOffset : Option Nat
  deriving DecidableEq, Repr

/-- UTF-16LE code units of a byte string of even length (the names parsed
here are below the surrogate range). -/
def utf16leUnits : List Nat → List Nat
  | lo :: hi :: rest => (lo + 256 * hi) :: utf16leUnits rest
  | _ => []

def ggpkTag : List Nat := [71, 71, 80, 75]
def pdirTag : List Nat := [80, 68, 73, 82]
def fileTag : List Nat := [70, 73, 76, 69]
def freeTag : List Nat := [70, 82, 69, 69]

/-- The child-entry loop of a PDIR: pairs of u32 name hash (dropped) and
u64 child offset. -/
def parseChildren : Nat → List Nat → Option (List Nat × List Nat)
  | 0, bs => some ([], bs)
  | n + 1, bs => do
    let (_nameHash, bs) ← readU32le bs
    let (childOff, bs) ← readU64le bs
    let (rest, bs) ← parseChildren n bs
    some (childOff :: rest, bs)

/-- The chunk scan loop of PackSource.__init__ (ggpk.py lines 60-98). Reads
are required to be exactly satisfiable (a truncated pack is none, where the
source would raise in struct or the UTF-16 decode). data_size uses truncated
subtraction; a record length below the header footprint is malformed input.
The fuel bounds the loop: a chunk of record length zero makes the source
loop forever, modelled as none; any terminating scan gets enough fuel. -/
def scanChunks (bytes : List Nat) (pack_size child0 child1 : Nat) :
    Nat → Nat → PackSource → Option PackSource
  | 0, _, _ => none
  | fuel + 1, off, st =>
    if off < pack_size then do
      let s := bytes.drop off
      let (rec_len, s) ← readU32le s
      if s.length < 4 then none else
      let tag := s.take 4
      let s := s.drop 4
      let next := off + rec_len
      if tag = pdirTag then do
        let root := if off = child0 ∨ off = child1 then some off else st.rootOffset
        let (name_len, s) ← readU32le s
        let (child_count, s) ← readU32le s
        if s.length < 32 then none else
        let sha := s.take 32
        let s := s.drop 32
        if s.length < name_len * 2 then none else
        let raw := s.take (name_len * 2)
        let name := utf16leUnits (raw.take (raw.length - 2))
        let s := s.drop (name_len * 2)
        let (children, _) ← parseChildren child_count s
        let parents := children.foldl (fun ps c => dictInsert ps c off) st.parents
        scanChunks bytes pack_size child0 child1 fuel next
          { st with rootOffset := root,
                    dirs := dictInsert st.dirs off (PackDir.mk rec_len name sha children),
                    parents := parents }
      else if tag = fileTag then do
        let (name_len, s) ← readU32le s
        if s.length < 32 then none else
        let sha := s.take 32
        let s := s.drop 32
        if s.length < name_len * 2 then none else
        let raw := s.take (name_len * 2)
        let name := utf16leUnits (raw.take (raw.length - 2))
        let data_offset := off + 8 + 4 + 32 + name_len * 2
        let data_size := rec_len - (data_offset - off)
        scanChunks bytes pack_size child0 child1 fuel next
          { st with files :=
              dictInsert st.files off (PackFile.mk rec_len name sha data_offset data_size) }
      else if tag = freeTag then do
        let (next_free, _) ← readU64le s
        let data_offset := off + 8 + 8
        let data_size := rec_len - (data_offset - off)
        scanChunks bytes pack_size child0 child1 fuel next
          { st with frees :=
              dictInsert st.frees off (PackFree.mk rec_len next_free data_offset data_size) }
      else none
    else some st

/-- PackSource.__init__: the 28-byte GGPK header (tag GGPK, version 2 or 3,
two child offsets), then the chunk scan from offset 28. -/
def open_pack (bytes : List Nat) : Option PackSource := do
  let s := bytes
  let (_rec_len, s) ← readU32le s
  if s.length < 4 then none else
  let tag := s.take 4
  let s := s.drop 4
  let (version, s) ← readU32le s
  let (child0, s) ← readU64le s
  let (child1, _) ← readU64le s
  if tag ≠ ggpkTag ∨ (version ≠ 2 ∧ version ≠ 3) then none else
  scanChunks bytes bytes.length child0 child1 (bytes.length + 1) 28
    (PackSource.mk [] [] [] [] none)

/-- "/".join of path segments. -/
def joinSlash (segments : List (List Nat)) : List Nat :=
  (segments.intersperse [47]).flatten

/-- The parent walk of PackSource.file_path: append each parent dir's name
until the root is reached; an offset with no parent edge is an orphan
(inner none). Outer none models the exceptions (and the hang on a cyclic
parent map, which the fuel cuts off). -/
def file_path_go (st : PackSource) (root : Nat) :
    Nat → Nat → List (List Nat) → Option (Option (List Nat))
  | 0, _, _ => none
  | fuel + 1, offset, segments =>
    match alookup st.parents offset with
    | none => some none
    | some dirOff =>
      match alookup st.dirs dirOff with
      | none => none
      | some dir =>
        let segments := segments ++ [dir.name]
        if dirOff = root then some (some (joinSlash segments.reverse))
        else file_path_go st root fuel dirOff segments

/-- PackSource.file_path(offset): none-outer when the pack never found a
root (the attribute error) or the offset is no file. -/
def file_path (st : PackSource) (offset : Nat) : Option (Option (List Nat)) :=
  match st.rootOffset with
  | none => none
  | some root =>
    match alookup st.files offset with
    | none => none
    | some file => file_path_go st root (st.parents.length + 1) offset [file.name]

/-- PackSource.file_data. -/
def file_data (bytes : List Nat) (file : PackFile) : List Nat :=
  (bytes.drop file.data_offset).take file.data_size

/-- The packed-file phase of loose ingest (ingest_loose.py lines 222-248):
enumerate the pack's files in scan order; every file with a recoverable path
gets an index row and an entry in all_objects under its stored SHA-256
(record_one uses the modern path hasher); then the missing addresses are
bulk-queried and exactly those are queued, and the queue is flushed.
Returns the rows written, the store, the queue and the uploads. -/
def ingest_pack_phase (packBytes : List Nat) (store : StoreState) (q : QueueState) :
    Option (List IndexRow × StoreState × QueueState × List (List Nat × List Nat)) := do
  let pack ← open_pack packBytes
  let init : List IndexRow × List (List Nat × QueueObj) := ([], [])
  let (rows, all_objects) ← pack.files.foldlM
    (fun acc entry => do
      let (off, file) := entry
      let fp ← file_path pack off
      match fp with
      | none => pure acc
      | some path =>
        pure (acc.1 ++ [IndexRow.mk file.sha256 path (modern_hash_file_path path)
                file.data_size],
              dictInsert acc.2 file.sha256
                (QueueObj.mk (file_data packBytes file) file.data_size)))
    init
  let missing := (all_objects.map Prod.fst).filter (fun a => !store.present a)
  let (q, store, ups) := missing.foldl
    (fun acc addr =>
      let (q, store, ups) := acc
      match alookup all_objects addr with
      | some obj =>
        let (q, store, newUps) := batch_queue_store_one q store addr obj
        (q, store, ups ++ newUps)
      | none => acc)
    (q, store, ([] : List (List Nat × List Nat)))
  let (q, store, finalUps) := batch_queue_flush q store true
  some (rows, store, q, ups ++ finalUps)

/-! ## Loose ingest and the SHA-1 bridge (ingest_loose.py lines 129-220) -/

/-- A manifest entry as the loose ingest sees it: path, declared size, and
the optional SHA-1 hint. -/
structure SrcEntry : Type where
  path : List Nat
  size : Nat
  sha1 : Option (List Nat)
  deriving DecidableEq, Repr

/-- "Content.ggpk" as code points. -/
def contentGgpkName : List Nat := [67, 111, 110, 116, 101, 110, 116, 46, 103, 103, 112, 107]

/-- PurePosixPath.name: the component after the last slash. -/
def pathName (p : List Nat) : List Nat := ((p.splitOn 47).getLastD [])

/-- The first entry loop of ingest_source (lines 170-194) restricted to its
bridge behaviour: entries named Content.ggpk are skipped; an entry whose
SHA-1 the bridge resolves is recorded immediately and never revisited; the
rest are deferred in order. All bridge lookups use the state at run start:
the loop performs no bridge writes. -/
def loose_deferred (bridge0 : List Nat → Option (List Nat)) :
    List SrcEntry → List SrcEntry
  | [] => []
  | e :: rest =>
    if pathName e.path = contentGgpkName then loose_deferred bridge0 rest
    else
      let resolved := match e.sha1 with
        | some s => bridge0 s
        | none => none
      match resolved with
      | some _ => loose_deferred bridge0 rest
      | none => e :: loose_deferred bridge0 rest

/-- The deferred-entry loop (lines 206-220) restricted to its bridge
writes: each deferred entry's bytes are read and hashed with H (sha256),
and when the entry carries a SHA-1 the pair (sha1, digest) is put into the
bridge (an lmdb put, which overwrites). The returned list is the puts in
execution order. -/
def loose_bridge_puts_go (H : List Nat → List Nat)
    (sourceRead : List Nat → Option (List Nat)) :
    List SrcEntry → Option (List (List Nat × List Nat))
  | [] => some []
  | e :: rest => do
    let data ← sourceRead e.path
    let addr := H data
    let puts ← loose_bridge_puts_go H sourceRead rest
    match e.sha1 with
    | some s => some ((s, addr) :: puts)
    | none => some puts

/-- The SHA-1 bridge writes one loose ingest run performs, in order:
set_sha256_from_sha1 is called only from the deferred-entry loop
(ingest_loose.py line 217), its sole caller in the system. -/
def loose_bridge_puts (H : List Nat → List Nat)
    (sourceRead : List Nat → Option (List Nat))
    (bridge0 : List Nat → Option (List Nat)) (entries : List SrcEntry) :
    Option (List (List Nat × List Nat)) :=
  loose_bridge_puts_go H sourceRead (loose_deferred bridge0 entries)

/-- The bridge contents after a prefix of the run's puts (lmdb put
semantics: the last write to a key wins). -/
def bridge_after (bridge0 : List Nat → Option (List Nat))
    (puts : List (List Nat × List Nat)) (k : List Nat) : Option (List Nat) :=
  match alookup puts.reverse k with
  | some v => some v
  | none => bridge0 k

/-! ## Statement-level definitions -/

/-- The uncompressed_size recorded for bundle i (0 when i is out of range;
group members are always in range). -/
def sizeAt (info : List (Nat × Nat)) (i : Nat) : Nat := (info[i]?.getD (0, 0)).1

/-- The inner-file count recorded for bundle i. -/
def countAt (info : List (Nat × Nat)) (i : Nat) : Nat := (info[i]?.getD (0, 0)).2

/-- The cumulative uncompressed_size of a member list. -/
def sumSize (info : List (Nat × Nat)) (g : List Nat) : Nat := (g.map (sizeAt info)).sum

/-- The cumulative inner-file count of a member list. -/
def sumCount (info : List (Nat × Nat)) (g : List Nat) : Nat := (g.map (countAt info)).sum

/-- What actually holds of every group group_bundles emits: the recorded
totals are the member sums, the group is nonempty, and the totals excluding
the group's last member are strictly below both budgets (so a group can
exceed a budget by at most its last bundle). -/
def groupWithinSlack (info : List (Nat × Nat)) (g : List Nat × Nat × Nat) : Prop :=
  g.1 ≠ [] ∧ g.2.1 = sumSize info g.1 ∧ g.2.2 = sumCount info g.1 ∧
  ∃ pre last, g.1 = pre ++ [last] ∧
    sumSize info pre < groupMaxSize ∧ sumCount info pre < groupMaxCount

/-- The hash a generated path table maps its emitted paths to: the output
hasher when one is set, else the input hasher. -/
def outHash (ih : HasherKind) (oh : Option HasherKind) (s : List Nat) : Nat :=
  match oh with
  | some k => hash_file_path k s
  | none => hash_file_path ih s

/-- The two dicts of a path table agree: any cached path's key also carries
its output fingerprint. -/
def phtAligned (ih : HasherKind) (oh : Option HasherKind) (t : PathHashTable) : Prop :=
  ∀ k p, alookup t.path_by_ihash k = some p →
    alookup t.ohash_by_ihash k = some (outHash ih oh p)

/-- An index row whose path and fingerprint both come from the path table at
one key, as the group loop writes them. -/
def rowFromPht (pht : PathHashTable) (row : IndexRow) : Prop :=
  ∃ k, alookup pht.path_by_ihash k = some row.path ∧
    alookup pht.ohash_by_ihash k = some row.phash

/-- The rep hashes probed by the algorithm detection. -/
def repHashes (index : BundleIndex) : List Nat := index.path_reps.map (fun x => x.hash)

/-- Every bundled-index row a group-loop run emits (beyond the rows it was
handed) carries as phash the modern fingerprint of its own path:
MurmurHash2-64A of the lowercased path under seed 0x1337B33F. -/
def phtEmitsMurmur (pht : PathHashTable) : Prop :=
  ∀ (H : List Nat → List Nat) (decomp : List Nat → Nat → List Nat)
    (bundles : List BundleRecord) (bundle_by_path : List (List Nat × List Nat))
    (l2b : List (List FileRecord)) (bemBase : ExtKey → Option (List Nat))
    (groups : List (List Nat × Nat × Nat)) (bemOver : List (ExtKey × List Nat))
    (store : StoreState) (q : QueueState) (rows : List IndexRow)
    (ups : List (List Nat × List Nat))
    (out : List (ExtKey × List Nat) × StoreState × QueueState ×
      List IndexRow × List (List Nat × List Nat)),
    process_groups H decomp pht bundles bundle_by_path l2b bemBase groups
      bemOver store q rows ups = some out →
    ∀ row ∈ out.2.2.2.1, row ∈ rows ∨
      row.phash = murmur2_64a (asciiLower row.path) modernSeed

/-- A key the extent map does not usefully know at run start: unset, or set
to an empty value (which the walrus truthiness of the group loop treats as
unset). -/
def bemMissKey (bemBase : ExtKey → Option (List Nat)) (k : ExtKey) : Prop :=
  bemBase k = none ∨ bemBase k = some []

/-- What the claim asserts of decompress_all on a well-formed bundle: it is
the concatenation of the independent per-block decompressions, each block
before the last yields exactly block_granularity bytes, the last yields
uncompressed_size minus (block_count-1) * granularity bytes, and the total
is exactly uncompressed_size bytes. -/
def decompressAllSpec (decomp : List Nat → Nat → List Nat) (b : CompressedBundle) : Prop :=
  let n := b.block_sizes.length
  let gran := b.uncompressed_block_granularity
  let total := b.uncompressed_size
  b.decompress_all decomp
    = ((List.range n).map (fun i =>
        decomp (blockChunk b.block_sizes b.payload i) (blockUsize gran total n i))).flatten
  ∧ (∀ i, i + 1 < n →
      (decomp (blockChunk b.block_sizes b.payload i) (blockUsize gran total n i)).length
        = gran)
  ∧ (decomp (blockChunk b.block_sizes b.payload (n - 1)) (blockUsize gran total n (n - 1))).length
      = total - (n - 1) * gran
  ∧ (b.decompress_all decomp).length = total

/-- A decompressor that yields exactly the requested number of bytes (what
a successful ooz.decompress call does on every block of a well-formed
bundle). -/
def wellFormedDecomp (decomp : List Nat → Nat → List Nat) : Prop :=
  ∀ data n, (decomp data n).length = n

/-! ## Concrete inputs used by counterexamples and witnesses -/

/-- The 60-byte header of an outer bundle container with the given
uncompressed size, granularity and block size table (zeros in the fields
the parser drops). -/
def cbHeaderBytes (usize gran : Nat) (blockSizes : List Nat) : List Nat :=
  u32enc usize ++ u32enc 0 ++ u32enc 0 ++ u32enc 0 ++ u32enc 0
    ++ u64enc 0 ++ u64enc 0 ++ u32enc blockSizes.length ++ u32enc gran
    ++ List.replicate 16 0 ++ (blockSizes.map u32enc).flatten

/-- Digest of the loose row naming the index bundle blob. -/
def c3indexAddr : List Nat := [7]

/-- Digest of the loose row naming the only outer bundle blob. -/
def c3B : List Nat := [5]

/-- The stale digest the extent map caches for the only inner file. -/
def c3D : List Nat := [9]

/-- A stand-in content hash (hashlib.sha256 is external): the length byte. -/
def c3H : List Nat → List Nat := fun l => [l.length]

/-- A stand-in decompressor (ooz is external): the identity on the block
bytes. -/
def c3dec : List Nat → Nat → List Nat := fun d _ => d

/-- The outer bundle blob: header for a 2-byte payload in one block of
granularity 2, then the two payload bytes. -/
def c3bundleBlob : List Nat := cbHeaderBytes 2 2 [2] ++ [10, 11]

/-- The path encoding: one region of 6 bytes emitting the single path "a"
(cmd 1 with no bases, then the NUL-terminated string). -/
def c3pathComp : List Nat := cbHeaderBytes 6 6 [6] ++ (u32enc 1 ++ [97, 0])

/-- The uncompressed index payload: one bundle "X" of uncompressed size 2,
one file record (path hash of "a", bundle 0, offset 0, size 2), one path
rep whose hash is the modern hash_dir of Art, then the path encoding. -/
def c3inner : List Nat :=
  u32enc 1
    ++ u32enc 1 ++ [88] ++ u32enc 2
    ++ u32enc 1
    ++ u64enc (modern_hash_file_path [97]) ++ u32enc 0 ++ u32enc 0 ++ u32enc 2
    ++ u32enc 1
    ++ u64enc (modern_hash_dir_path artBytes) ++ u32enc 0 ++ u32enc 6 ++ u32enc 6
    ++ c3pathComp

/-- The index bundle blob: the inner payload wrapped in one block. -/
def c3indexBlob : List Nat := cbHeaderBytes c3inner.length c3inner.length [c3inner.length] ++ c3inner

/-- The loose index rows: the index bundle and one outer bundle. -/
def c3rows : List LooseRow :=
  [LooseRow.mk indexBinPath c3indexAddr 0 0,
   LooseRow.mk (bin_path [88]) c3B 0 0]

/-- The store at run start: the two blobs are present, the cached inner
digest c3D is absent (the stale situation). -/
def c3storeBase : List Nat → Option (List Nat) := fun a =>
  if a = c3indexAddr then some c3indexBlob
  else if a = c3B then some c3bundleBlob
  else none

/-- The extent map at run start: the inner file's extent is cached as c3D. -/
def c3bemBase : ExtKey → Option (List Nat) := fun k =>
  if k = (c3B, 0, 2) then some c3D else none

/-- The bytes the run re-slices for the stale extent. -/
def c3slice : List Nat :=
  ((((materializeBundle c3dec (StoreState.mk c3storeBase []) c3B).getD []).drop 0).take 2)

/-- The effects of the stale-extent run: one index row under the cached
digest, no extent-map write, one upload of the re-sliced bytes under the
cached digest. -/
def c3fx : Effects :=
  Effects.mk (some [IndexRow.mk c3D [97] (modern_hash_file_path [97]) 2]) []
    [(c3D, [10, 11])]

/-! ## Helper lemmas -/

theorem alookup_dictInsert {α β : Type} [DecidableEq α]
    (l : List (α × β)) (k : α) (v : β) (k' : α) :
    alookup (dictInsert l k v) k' = if k' = k then some v else alookup l k' := by
  induction l with
  | nil =>
    simp only [dictInsert, alookup]
    by_cases h : k' = k
    · subst h; simp
    · rw [if_neg (fun hh => h hh.symm), if_neg h]
  | cons hd tl ih =>
    obtain ⟨k0, v0⟩ := hd
    simp only [dictInsert]
    by_cases h0 : k0 = k
    · subst h0
      simp only [if_pos rfl, alookup]
      by_cases h1 : k0 = k'
      · subst h1; simp
      · rw [if_neg h1, if_neg (fun hh => h1 hh.symm), if_neg h1]
    · rw [if_neg h0]
      simp only [alookup]
      by_cases h1 : k0 = k'
      · have h2 : ¬ k' = k := fun hh => h0 (h1.trans hh)
        rw [if_pos h1, if_neg h2, if_pos h1]
      · rw [if_neg h1, ih]
        by_cases h2 : k' = k
        · rw [if_pos h2, if_pos h2]
        · rw [if_neg h2, if_neg h2, if_neg h1]

theorem alookup_mem {α β : Type} [DecidableEq α]
    {l : List (α × β)} {k : α} {v : β} (h : alookup l k = some v) : (k, v) ∈ l := by
  induction l with
  | nil => simp [alookup] at h
  | cons hd tl ih =>
    obtain ⟨k0, v0⟩ := hd
    by_cases h0 : k0 = k
    · subst h0
      simp [alookup] at h
      simp [h]
    · simp [alookup, h0] at h
      exact List.mem_cons_of_mem _ (ih h)

theorem alookup_none {α β : Type} [DecidableEq α]
    {l : List (α × β)} {k : α} (h : ∀ kv ∈ l, kv.1 ≠ k) : alookup l k = none := by
  induction l with
  | nil => rfl
  | cons hd tl ih =>
    obtain ⟨k0, v0⟩ := hd
    have h0 : k0 ≠ k := h (k0, v0) (List.mem_cons_self _ _)
    simp [alookup, h0]
    exact ih (fun kv hkv => h kv (List.mem_cons_of_mem _ hkv))

/-! ## C9 -/

/-- C9: in the relational backend, index_writer and index_reader key the
stored index by (manifest, kind) only and ignore the depot argument: for
any two depots, writing an index under one depot replaces the index read
under the other for the same manifest and kind. -/
theorem c9_db_index_ignores_depot (d1 d2 manifest : Nat) (kind : String)
    (data : List Nat) (tbl : IndexTable) (hne : d1 ≠ d2) :
    db_index_reader d2 manifest kind (db_index_writer d1 manifest kind data tbl)
      = some data := by
  simp [db_index_reader, db_index_writer]

theorem c9_db_index_ignores_depot_witness :
    db_index_reader 2 5 "loose" (db_index_writer 1 5 "loose" [1] (fun _ => none))
      = some [1] :=
  c9_db_index_ignores_depot 1 2 5 "loose" [1] (fun _ => none) (by decide)

/-! ## C1 -/

/-- C1 (claim is right, the code slips): the spec's store interface has both
backends implement write_data_bulk, and BatchQueue.flush and ingest_source
invoke it on any store, but attribute resolution on FilesystemStore (its
class body, then the ArtifactStore protocol body) finds no write_data_bulk:
only the relational backend has it, and there its store does carry the
on-conflict-ignore semantics (a present digest leaves the data table
unchanged and the call succeeds). -/
theorem c1_write_data_bulk_backend_divide :
    classHasMethod filesystemStoreMethods artifactStoreProtocolMethods
        "write_data_bulk" = false
    ∧ classHasMethod databaseStoreMethods artifactStoreProtocolMethods
        "write_data_bulk" = true
    ∧ ∀ (compress : List Nat → List Nat) (tbl : List DataRow) (addr data : List Nat),
        (tbl.any fun r => r.contentHash = addr) = true →
        dbBulkStore compress tbl addr data = tbl := by
  refine ⟨by decide, by decide, ?_⟩
  intro compress tbl addr data h
  simp [dbBulkStore, h]

/-! ## C2 -/

/-- The claim as stated: every group's recorded totals are at most 1 GiB
and 100 000. It is false: the budget check precedes the append, so the
bundle that closes a group can push it past a budget; a single bundle of
2 ^ 30 + 1 uncompressed bytes forms a group of that size. -/
theorem c2_group_budget_counterexample :
    ¬ ∀ g ∈ group_bundles [(2 ^ 30 + 1, 0)],
        g.2.1 ≤ 1 * 2 ^ 30 ∧ g.2.2 ≤ 100 * 10 ^ 3 := by
  decide

theorem group_bundles_go_sound (info : List (Nat × Nat)) (suffix : List (Nat × Nat)) :
    ∀ (bid : Nat) (acc : List Nat) (s c : Nat),
      suffix = info.drop bid →
      s = sumSize info acc → c = sumCount info acc →
      (acc ≠ [] → ∃ pre last, acc = pre ++ [last] ∧
        sumSize info pre < groupMaxSize ∧ sumCount info pre < groupMaxCount) →
      ∀ g ∈ group_bundles_go suffix acc s c bid, groupWithinSlack info g := by
  induction suffix with
  | nil =>
    intro bid acc s c _hdrop hs hc hacc g hg
    unfold group_bundles_go at hg
    by_cases hne : acc.length ≠ 0
    · rw [if_pos hne] at hg
      have hanil : acc ≠ [] := by
        intro h; rw [h] at hne; simp at hne
      have hgeq : g = (acc, s, c) := by simpa using hg
      subst hgeq
      exact ⟨hanil, hs, hc, hacc hanil⟩
    · rw [if_neg hne] at hg
      simp at hg
  | cons hd tl ih =>
    intro bid acc s c hdrop hs hc hacc g hg
    obtain ⟨usize, fcount⟩ := hd
    have hget : info[bid]? = some (usize, fcount) := by
      have h0 : (info.drop bid)[0]? = some (usize, fcount) := by
        rw [← hdrop]; simp
      rw [List.getElem?_drop] at h0
      simpa using h0
    have htl : tl = info.drop (bid + 1) := by
      have h2 := List.tail_drop info bid
      rw [← hdrop] at h2
      simpa using h2
    have hsizeAt : sizeAt info bid = usize := by simp [sizeAt, hget]
    have hcountAt : countAt info bid = fcount := by simp [countAt, hget]
    have hsize1 : sumSize info [bid] = usize := by
      simp [sumSize, hsizeAt]
    have hcount1 : sumCount info [bid] = fcount := by
      simp [sumCount, hcountAt]
    unfold group_bundles_go at hg
    by_cases hflush : s ≥ groupMaxSize ∨ c ≥ groupMaxCount
    · rw [if_pos hflush] at hg
      rcases List.mem_cons.mp hg with hgeq | hgrec
      · have hanil : acc ≠ [] := by
          intro h
          rw [h] at hs hc
          simp [sumSize, sumCount] at hs hc
          rw [hs, hc] at hflush
          revert hflush
          decide
        subst hgeq
        exact ⟨hanil, hs, hc, hacc hanil⟩
      · refine ih (bid + 1) [bid] usize fcount htl hsize1.symm hcount1.symm ?_ g hgrec
        intro _
        refine ⟨[], bid, rfl, ?_, ?_⟩ <;> simp [sumSize, sumCount, groupMaxSize, groupMaxCount]
    · rw [if_neg hflush] at hg
      push_neg at hflush
      refine ih (bid + 1) (acc ++ [bid]) (s + usize) (c + fcount) htl ?_ ?_ ?_ g hg
      · simp [sumSize, hs, hsizeAt]
      · simp [sumCount, hc, hcountAt]
      · intro _
        exact ⟨acc, bid, rfl, hs ▸ hflush.1, hc ▸ hflush.2⟩

/-- C2 amended: every group group_bundles emits is nonempty, its recorded
totals are the sums over its members, and both totals excluding the group's
last bundle are strictly below the budgets — a group may exceed 1 GiB or
100 000 records by at most its last bundle's contribution. -/
theorem c2_group_budget_slack (info : List (Nat × Nat)) (g : List Nat × Nat × Nat)
    (hg : g ∈ group_bundles info) : groupWithinSlack info g := by
  refine group_bundles_go_sound info info 0 [] 0 0 rfl (by simp [sumSize])
    (by simp [sumCount]) (fun h => absurd rfl h) g hg

theorem c2_group_budget_slack_witness : groupWithinSlack [(5, 1)] ([0], 5, 1) :=
  c2_group_budget_slack [(5, 1)] ([0], 5, 1) (by decide)

/-! ## C8 -/

/-- Every entry the first loop defers with a SHA-1 hint failed its bridge
lookup, which ran against the bridge state at run start. -/
theorem loose_deferred_unresolved (bridge0 : List Nat → Option (List Nat))
    (entries : List SrcEntry) :
    ∀ e ∈ loose_deferred bridge0 entries, ∀ s, e.sha1 = some s → bridge0 s = none := by
  induction entries with
  | nil => intro e he; simp [loose_deferred] at he
  | cons hd tl ih =>
    intro e he s hs
    unfold loose_deferred at he
    by_cases hg : pathName hd.path = contentGgpkName
    · rw [if_pos hg] at he
      exact ih e he s hs
    · rw [if_neg hg] at he
      cases hsha : hd.sha1 with
      | none =>
        simp [hsha] at he
        rcases he with he | he
        · subst he; rw [hsha] at hs; cases hs
        · exact ih e he s hs
      | some s0 =>
        simp [hsha] at he
        cases hb : bridge0 s0 with
        | some _ => rw [hb] at he; exact ih e he s hs
        | none =>
          rw [hb] at he
          simp at he
          rcases he with he | he
          · subst he; rw [hsha] at hs; cases hs; exact hb
          · exact ih e he s hs

/-- Every bridge put of the second loop carries the SHA-1 of one of the
entries it was run on. -/
theorem loose_bridge_puts_go_keys (H : List Nat → List Nat)
    (sourceRead : List Nat → Option (List Nat)) (entries : List SrcEntry)
    (puts : List (List Nat × List Nat))
    (h : loose_bridge_puts_go H sourceRead entries = some puts) :
    ∀ kv ∈ puts, ∃ e ∈ entries, e.sha1 = some kv.1 := by
  induction entries generalizing puts with
  | nil =>
    intro kv hkv
    simp [loose_bridge_puts_go] at h
    subst h
    simp at hkv
  | cons hd tl ih =>
    intro kv hkv
    simp only [loose_bridge_puts_go, Option.bind_eq_bind, Option.bind_eq_some] at h
    obtain ⟨data, _hdata, h⟩ := h
    obtain ⟨rest, hrest, h⟩ := h
    cases hsha : hd.sha1 with
    | none =>
      rw [hsha] at h
      simp at h
      subst h
      obtain ⟨e, he, hs⟩ := ih rest hrest kv hkv
      exact ⟨e, List.mem_cons_of_mem _ he, hs⟩
    | some s0 =>
      rw [hsha] at h
      simp at h
      subst h
      rcases List.mem_cons.mp hkv with hkv | hkv
      · subst hkv
        exact ⟨hd, List.mem_cons_self _ _, hsha⟩
      · obtain ⟨e, he, hs⟩ := ih rest hrest kv hkv
        exact ⟨e, List.mem_cons_of_mem _ he, hs⟩

/-- C8 amended: a SHA-1 key that already has a value at the start of a
loose ingest run is never rewritten by the run (every bridge put is for a
key whose lookup failed before any write of the run); only a key first
written within the run can be written again, by a later same-SHA-1 entry. -/
theorem c8_bridge_preserves_prior (H : List Nat → List Nat)
    (sourceRead : List Nat → Option (List Nat))
    (bridge0 : List Nat → Option (List Nat)) (entries : List SrcEntry)
    (puts : List (List Nat × List Nat)) (k v : List Nat) (n : Nat)
    (hrun : loose_bridge_puts H sourceRead bridge0 entries = some puts)
    (hk : bridge0 k = some v) :
    bridge_after bridge0 (puts.take n) k = some v := by
  have hkeys : ∀ kv ∈ puts, kv.1 ≠ k := by
    intro kv hkv
    obtain ⟨e, he, hs⟩ := loose_bridge_puts_go_keys H sourceRead _ puts hrun kv hkv
    intro hek
    have := loose_deferred_unresolved bridge0 entries e he kv.1 hs
    rw [hek, hk] at this
    cases this
  have hnone : alookup (puts.take n).reverse k = none := by
    refine alookup_none ?_
    intro kv hkv
    exact hkeys kv ((List.take_sublist n puts).subset (List.mem_reverse.mp hkv))
  simp [bridge_after, hnone, hk]

theorem c8_bridge_preserves_prior_witness :
    bridge_after (fun k => if k = [4] then some [9] else none)
      ([([3], [1]), ([3], [1, 1])].take 2) [4] = some [9] :=
  c8_bridge_preserves_prior (fun d => d)
    (fun p => if p = [112] then some [1] else if p = [113] then some [1, 1] else none)
    (fun k => if k = [4] then some [9] else none)
    [SrcEntry.mk [112] 1 (some [3]), SrcEntry.mk [113] 2 (some [3])]
    [([3], [1]), ([3], [1, 1])] [4] [9] 2 (by decide) (by decide)

/-! ## C10 -/

/-- When no loose row's path is exactly Bundles2/_.index.bin, the scan
leaves index_file_addr unset. -/
theorem scanLoose_no_index (rows : List LooseRow)
    (h : ∀ row ∈ rows, row.path ≠ indexBinPath) : (scanLoose rows).1 = none := by
  induction rows with
  | nil => rfl
  | cons hd tl ih =>
    have hhd : hd.path ≠ indexBinPath := h hd (List.mem_cons_self _ _)
    have ihh := ih (fun r hr => h r (List.mem_cons_of_mem _ hr))
    unfold scanLoose
    cases hsc : scanLoose tl with
    | mk addr bbp =>
      rw [hsc] at ihh
      simp only at ihh
      subst ihh
      by_cases hsuf : bundleBinSuffix.isSuffixOf hd.path <;> simp [hhd, hsuf]

/-- C10: if the loose index holds no row whose path is exactly
Bundles2/_.index.bin, ingest_bundled returns before opening the bundled
index writer: the bundled index is neither created nor modified, no
extent-map tuple is written and no object is stored. -/
theorem c10_no_index_no_effect (H : List Nat → List Nat)
    (decomp : List Nat → Nat → List Nat) (rows : List LooseRow)
    (storeBase : List Nat → Option (List Nat)) (bemBase : ExtKey → Option (List Nat))
    (h : ∀ row ∈ rows, row.path ≠ indexBinPath) :
    ingest_bundled H decomp rows storeBase bemBase = some (Effects.mk none [] []) := by
  have h1 := scanLoose_no_index rows h
  unfold ingest_bundled
  cases hsc : scanLoose rows with
  | mk addr bbp =>
    rw [hsc] at h1
    simp only at h1
    subst h1
    rfl

theorem c10_no_index_no_effect_witness :
    ingest_bundled (fun _ => []) (fun d _ => d) [LooseRow.mk [97] [1] 0 0]
      (fun _ => none) (fun _ => none) = some (Effects.mk none [] []) :=
  c10_no_index_no_effect (fun _ => []) (fun d _ => d) [LooseRow.mk [97] [1] 0 0]
    (fun _ => none) (fun _ => none) (by decide)

/-! ## C4 -/

/-- All-zero SHA-256, the unhashed marker of GGPK entries. -/
def zeros32 : List Nat := List.replicate 32 0

/-- A 140-byte GGPK pack: header (version 2, child0 = 28), one root PDIR at
offset 28 with an empty name and one child, and one FILE at offset 90 named
"a" whose stored SHA-256 is all zero and whose data is the two bytes
[1, 2]. -/
def c4packBytes : List Nat :=
  u32enc 28 ++ ggpkTag ++ u32enc 2 ++ u64enc 28 ++ u64enc 0
    ++ u32enc 62 ++ pdirTag ++ u32enc 1 ++ u32enc 1 ++ zeros32 ++ [0, 0]
      ++ (u32enc 0 ++ u64enc 90)
    ++ u32enc 50 ++ fileTag ++ u32enc 2 ++ zeros32 ++ [97, 0, 0, 0] ++ [1, 2]

/-- The empty store and the loose-ingest batch queue at the point the GGPK
phase runs. -/
def c4store0 : StoreState := StoreState.mk (fun _ => none) []

def c4q0 : QueueState := QueueState.mk (some (200 * 2 ^ 20)) (some (50 * 1000)) 0 0 []

set_option maxRecDepth 4000 in
/-- C4 (the claim is the documented intent; the code does not implement
it): ingesting a GGPK whose only FILE record has an all-zero stored SHA-256
and a recoverable path "/a" writes an index row under the all-zero digest
and uploads the file's bytes under the all-zero address — nothing filters
zero hashes in PackSource or in the packed-file phase. -/
theorem c4_zero_sha_row_written :
    (ingest_pack_phase c4packBytes c4store0 c4q0).map (fun r => (r.1, r.2.2.2))
      = some ([IndexRow.mk zeros32 [47, 97] (modern_hash_file_path [47, 97]) 2],
              [(zeros32, [1, 2])]) := by
  decide

/-! ## C5 -/

/-- Cutting a NUL-terminated string: the prefix up to the first NUL and the
bytes after it. -/
theorem cut_ntmbs_of_append (s rest : List Nat) (hs : ¬ 0 ∈ s) :
    cut_ntmbs (s ++ 0 :: rest) = some (s, rest) := by
  induction s with
  | nil => simp [cut_ntmbs]
  | cons b bs ih =>
    have hb : b ≠ 0 := fun h => hs (by simp [h])
    have hbs : ¬ 0 ∈ bs := fun h => hs (List.mem_cons_of_mem _ h)
    simp [cut_ntmbs, hb, ih hbs]

/-- Cutting at a NUL consumes at least that byte. -/
theorem cut_ntmbs_len {l s r : List Nat} (h : cut_ntmbs l = some (s, r)) :
    r.length < l.length := by
  induction l generalizing s r with
  | nil => simp [cut_ntmbs] at h
  | cons b rest ih =>
    by_cases hb : b = 0
    · simp [cut_ntmbs, hb] at h
      simp [← h.2]
    · simp only [cut_ntmbs, hb, if_false] at h
      cases hr : cut_ntmbs rest with
      | none => rw [hr] at h; simp at h
      | some p =>
        rw [hr] at h
        obtain ⟨s2, r2⟩ := p
        simp at h
        have := ih hr
        simp [← h.2]
        omega

/-- The decode loop consumes at least one byte per iteration: any two fuels
at least the slice length run it to the same answer. -/
theorem generate_paths_go_fuel (f1 : Nat) :
    ∀ (f2 : Nat) (slice : List Nat) (phase : Bool) (bases : List (List Nat)),
      slice.length ≤ f1 → slice.length ≤ f2 →
      generate_paths_go f1 slice phase bases = generate_paths_go f2 slice phase bases := by
  induction f1 with
  | zero =>
    intro f2 slice phase bases h1 _h2
    have hnil : slice = [] := List.eq_nil_of_length_eq_zero (by omega)
    subst hnil
    cases f2 <;> rfl
  | succ g ih =>
    intro f2 slice phase bases h1 h2
    cases slice with
    | nil => cases f2 <;> rfl
    | cons b0 t0 =>
      cases f2 with
      | zero => simp at h2
      | succ h =>
        cases t0 with
        | nil => rfl
        | cons b1 t1 =>
          cases t1 with
          | nil => rfl
          | cons b2 t2 =>
            cases t2 with
            | nil => rfl
            | cons b3 rest =>
              have hr1 : rest.length ≤ g := by simp at h1; omega
              have hr2 : rest.length ≤ h := by simp at h2; omega
              simp only [generate_paths_go]
              by_cases hcmd : b0 + b1 * 2 ^ 8 + b2 * 2 ^ 16 + b3 * 2 ^ 24 = 0
              · rw [if_pos hcmd, if_pos hcmd]
                exact ih h rest _ _ hr1 hr2
              · rw [if_neg hcmd, if_neg hcmd]
                cases hcut : cut_ntmbs rest with
                | none => rfl
                | some p =>
                  obtain ⟨s, rest'⟩ := p
                  have hlt := cut_ntmbs_len hcut
                  have hp1 : rest'.length ≤ g := by omega
                  have hp2 : rest'.length ≤ h := by omega
                  dsimp only
                  by_cases hph : phase = true
                  · rw [if_pos hph, if_pos hph]
                    exact ih h rest' _ _ hp1 hp2
                  · rw [if_neg hph, if_neg hph]
                    rw [ih h rest' phase bases hp1 hp2]

/-- C5: the two-phase region decoder. A region starts outside base phase
with an empty base array; a zero command word toggles the phase, clearing
the bases exactly when entering base phase; a non-zero command word cmd
reads the following NUL-terminated string s, prepends bases[cmd-1] when
cmd ≤ len(bases), and then either appends the result to the bases (base
phase) or emits it as a reconstructed path. -/
theorem c5_path_decoder_steps (path_view : List Nat) (rep : PathRep)
    (cmd : Nat) (rest s : List Nat) (phase : Bool) (bases : List (List Nat))
    (hc0 : cmd ≠ 0) (hc32 : cmd < 2 ^ 32) (hs : ¬ 0 ∈ s) :
    generate_paths path_view rep
      = decode_paths ((path_view.drop rep.offset).take rep.size) false []
    ∧ decode_paths (u32enc 0 ++ rest) phase bases
        = decode_paths rest (!phase) (if phase then bases else [])
    ∧ decode_paths (u32enc cmd ++ (s ++ 0 :: rest)) phase bases
        = (let s2 := if cmd ≤ bases.length then bases.getD (cmd - 1) [] ++ s else s
           if phase then decode_paths rest phase (bases ++ [s2])
           else Option.map (fun out => s2 :: out) (decode_paths rest phase bases)) := by
  refine ⟨rfl, ?_, ?_⟩
  · show generate_paths_go (rest.length + 3 + 1) (0 :: 0 :: 0 :: 0 :: rest) phase bases = _
    rw [generate_paths_go]
    norm_num [decode_paths]
    exact generate_paths_go_fuel _ _ _ _ _ (by omega) (by omega)
  · have hdec : cmd % 2 ^ 8 + cmd / 2 ^ 8 % 2 ^ 8 * 2 ^ 8 + cmd / 2 ^ 16 % 2 ^ 8 * 2 ^ 16
        + cmd / 2 ^ 24 % 2 ^ 8 * 2 ^ 24 = cmd := by omega
    have hcut := cut_ntmbs_of_append s rest hs
    have hlen : (u32enc cmd ++ (s ++ 0 :: rest)).length
        = s.length + rest.length + 4 + 1 := by
      simp [u32enc]
      omega
    unfold decode_paths
    rw [hlen]
    show generate_paths_go (s.length + rest.length + 4 + 1)
      (cmd % 2 ^ 8 :: cmd / 2 ^ 8 % 2 ^ 8 :: cmd / 2 ^ 16 % 2 ^ 8
        :: cmd / 2 ^ 24 % 2 ^ 8 :: (s ++ 0 :: rest)) phase bases = _
    rw [generate_paths_go]
    simp only [hdec, hc0, if_false]
    split
    next heq => rw [hcut] at heq; cases heq
    next s1 rest2 heq =>
      rw [hcut] at heq
      cases heq
      have hfuel := generate_paths_go_fuel (s.length + rest.length + 4) rest.length
        rest phase bases (by omega) (by omega)
      by_cases hph : phase = true
      · simp only [hph, if_true]
        exact generate_paths_go_fuel _ _ _ _ _ (by omega) (by omega)
      · have hf : phase = false := by cases phase <;> simp_all
        subst hf
        rw [hfuel]
        cases hgo : generate_paths_go rest.length rest false bases <;>
          simp [hgo, decode_paths]

theorem c5_path_decoder_steps_witness :
    generate_paths [] (PathRep.mk 0 0 0 0)
      = decode_paths ((List.take 0 (List.drop 0 ([] : List Nat)))) false []
    ∧ decode_paths (u32enc 0 ++ []) false [[98]]
        = decode_paths [] (!false) (if false then [[98]] else [])
    ∧ decode_paths (u32enc 1 ++ ([97] ++ 0 :: [])) false [[98]]
        = (let s2 := if 1 ≤ ([[98]] : List (List Nat)).length then
             [[98]].getD (1 - 1) [] ++ [97] else [97]
           if false then decode_paths [] false ([[98]] ++ [s2])
           else Option.map (fun out => s2 :: out) (decode_paths [] false [[98]])) :=
  c5_path_decoder_steps [] (PathRep.mk 0 0 0 0) 1 [] [97] false [[98]]
    (by decide) (by decide) (by decide)

/-! ## C7 -/

/-- The closed form of the block loop: block j is cut at the running sum of
the preceding block sizes and decompressed to the granularity, except the
last block. -/
theorem decompress_blocks_closed (decomp : List Nat → Nat → List Nat)
    (gran total : Nat) (sizes : List Nat) :
    ∀ (i : Nat) (payload : List Nat),
      decompress_blocks decomp gran total sizes i payload
        = ((List.range sizes.length).map (fun j =>
            decomp ((payload.drop ((sizes.take j).sum)).take (sizes.getD j 0))
              (if j + 1 ≠ sizes.length then gran else total - (i + j) * gran))).flatten := by
  induction sizes with
  | nil => intro i payload; simp [decompress_blocks]
  | cons bsize rest ih =>
    intro i payload
    rw [decompress_blocks, ih (i + 1) (payload.drop bsize)]
    rw [List.length_cons, List.range_succ_eq_map]
    rw [List.map_cons, List.flatten_cons, List.map_map]
    congr 1
    · by_cases hrest : rest = [] <;> simp [hrest]
    · refine congrArg List.flatten (List.map_congr_left ?_)
      intro j _
      simp only [Function.comp_apply, List.getD_cons_succ, List.take_succ_cons,
        List.sum_cons, List.drop_drop]
      by_cases hlast : j + 1 ≠ rest.length
      · have h2 : j.succ + 1 ≠ rest.length + 1 := by omega
        rw [if_pos hlast, if_pos h2]
      · have h2 : ¬ (j.succ + 1 ≠ rest.length + 1) := by omega
        rw [if_neg hlast, if_neg h2]
        have h3 : i + 1 + j = i + j.succ := by omega
        rw [h3]

/-- The total length of the block loop's output under a decompressor that
returns the requested sizes. -/
theorem decompress_blocks_len (decomp : List Nat → Nat → List Nat)
    (gran total : Nat) (hlen : wellFormedDecomp decomp) (sizes : List Nat) :
    ∀ (i : Nat) (payload : List Nat), sizes ≠ [] →
      (decompress_blocks decomp gran total sizes i payload).length
        = (sizes.length - 1) * gran + (total - (i + sizes.length - 1) * gran) := by
  induction sizes with
  | nil => intro i payload h; exact absurd rfl h
  | cons bsize rest ih =>
    intro i payload _
    rw [decompress_blocks, List.length_append]
    by_cases hrest : rest = []
    · subst hrest
      simp [decompress_blocks, hlen _ _]
    · rw [ih (i + 1) (payload.drop bsize) hrest, hlen, if_pos hrest]
      obtain ⟨m, hm⟩ : ∃ m, rest.length = m + 1 :=
        ⟨rest.length - 1, by have := List.length_pos.mpr hrest; omega⟩
      simp only [hm, List.length_cons]
      have e1 : m + 1 - 1 = m := by omega
      have e2 : m + 1 + 1 - 1 = m + 1 := by omega
      have e3 : i + 1 + (m + 1) - 1 = i + m + 1 := by omega
      have e4 : i + (m + 1 + 1) - 1 = i + m + 1 := by omega
      rw [e1, e2, e3, e4]
      have e5 : (m + 1) * gran = gran + m * gran := by ring
      rw [e5]
      generalize m * gran = A
      generalize (i + m + 1) * gran = B
      omega

/-- C7: on a well-formed outer bundle (at least one block, a granularity
consistent with the declared uncompressed size, and a decompressor that
yields the requested byte counts) decompress_all is the concatenation of
the independent per-block decompressions, with every block but the last
yielding block_granularity bytes, the last yielding
uncompressed_size - (block_count-1) * granularity bytes, and the whole
exactly uncompressed_size bytes. -/
theorem c7_decompress_all_wf (decomp : List Nat → Nat → List Nat)
    (b : CompressedBundle) (h1 : wellFormedDecomp decomp)
    (h2 : b.block_sizes ≠ [])
    (h3 : (b.block_sizes.length - 1) * b.uncompressed_block_granularity
      ≤ b.uncompressed_size) :
    decompressAllSpec decomp b := by
  have hn1 : 1 ≤ b.block_sizes.length := List.length_pos.mpr h2
  refine ⟨?_, ?_, ?_, ?_⟩
  · rw [CompressedBundle.decompress_all, decompress_blocks_closed]
    unfold blockChunk blockUsize
    simp
  · intro i hi
    rw [h1]
    unfold blockUsize
    rw [if_pos (by omega)]
  · rw [h1]
    unfold blockUsize
    rw [if_neg (by omega)]
  · rw [CompressedBundle.decompress_all,
      decompress_blocks_len decomp _ _ h1 _ 0 _ h2]
    have h0 : 0 + b.block_sizes.length - 1 = b.block_sizes.length - 1 := by omega
    rw [h0]
    generalize (b.block_sizes.length - 1) * b.uncompressed_block_granularity = k at h3 ⊢
    omega

theorem c7_decompress_all_wf_witness :
    decompressAllSpec (fun _ n => List.replicate n 0)
      (CompressedBundle.mk 5 0 3 [2, 2] [9, 9, 9, 9]) :=
  c7_decompress_all_wf (fun _ n => List.replicate n 0)
    (CompressedBundle.mk 5 0 3 [2, 2] [9, 9, 9, 9])
    (fun _ n => by simp) (by decide) (by decide)

/-- C8 as stated is false on the code: set_sha256_from_sha1 is an lmdb put,
which overwrites, and one run puts once per deferred same-SHA-1 entry; two
entries declaring the same SHA-1 over different bytes make the second put
rewrite the first one's value. -/
theorem c8_bridge_rewrite_counterexample :
    loose_bridge_puts (fun d => d)
        (fun p => if p = [112] then some [1] else if p = [113] then some [1, 1] else none)
        (fun _ => none)
        [SrcEntry.mk [112] 1 (some [3]), SrcEntry.mk [113] 2 (some [3])]
      = some [([3], [1]), ([3], [1, 1])]
    ∧ bridge_after (fun _ => none) ([([3], [1]), ([3], [1, 1])].take 1) [3] = some [1]
    ∧ bridge_after (fun _ => none) ([([3], [1]), ([3], [1, 1])].take 2) [3] = some [1, 1]
    ∧ ([1] : List Nat) ≠ [1, 1] := by
  refine ⟨by decide, by decide, by decide, by decide⟩

/-! ## C3 -/

/-- A falsy truthiness result means the underlying lookup was unset or
empty. -/
theorem bemTruthy_none {v : Option (List Nat)} (h : bemTruthy v = none) :
    v = none ∨ v = some [] := by
  cases v with
  | none => exact Or.inl rfl
  | some f =>
    by_cases hf : f = []
    · exact Or.inr (by rw [hf])
    · simp [bemTruthy, hf] at h

/-- pass1_record extends neither the queued extent tuples nor shrinks them:
it passes newBem2 through, and appends exactly one row built from the path
table. -/
theorem pass1_record_shape (pht : PathHashTable) (bid : Nat) (frec : FileRecord)
    (found : List (List Nat × (Nat × Nat × Nat))) (rows : List IndexRow)
    (cache2 : Option (List Nat)) (newBem2 : List (ExtKey × List Nat))
    (fhash : List Nat)
    (out : Option (List Nat) × List (ExtKey × List Nat) ×
      List (List Nat × (Nat × Nat × Nat)) × List IndexRow)
    (hrec : pass1_record pht bid frec found rows cache2 newBem2 fhash = some out) :
    out.2.1 = newBem2 ∧
    ∃ row, out.2.2.2 = rows ++ [row] ∧ rowFromPht pht row := by
  unfold pass1_record at hrec
  split at hrec
  · cases hrec
  · rename_i path hpath
    split at hrec
    · cases hrec
    · rename_i ohash hohash
      cases hrec
      exact ⟨rfl, ⟨IndexRow.mk fhash path ohash frec.file_size, rfl,
        ⟨frec.path_hash, hpath, hohash⟩⟩⟩

/-- A first-pass step queues at most one extent tuple, and only for a key
whose extent-map lookup came back falsy. -/
theorem pass1_step_puts (H : List Nat → List Nat) (decomp : List Nat → Nat → List Nat)
    (store : StoreState) (bem : ExtKey → Option (List Nat)) (pht : PathHashTable)
    (bid : Nat) (bhash : List Nat) (frec : FileRecord)
    (cache : Option (List Nat)) (newBem : List (ExtKey × List Nat))
    (found : List (List Nat × (Nat × Nat × Nat))) (rows : List IndexRow)
    (out : Option (List Nat) × List (ExtKey × List Nat) ×
      List (List Nat × (Nat × Nat × Nat)) × List IndexRow)
    (hstep : pass1_step H decomp store bem pht bid bhash frec cache newBem found rows
      = some out) :
    ∀ kv ∈ out.2.1, kv ∈ newBem ∨ (bem kv.1 = none ∨ bem kv.1 = some []) := by
  intro kv hkv
  unfold pass1_step at hstep
  split at hstep
  · -- truthy hit: newBem is passed through
    rw [(pass1_record_shape _ _ _ _ _ _ _ _ _ hstep).1] at hkv
    exact Or.inl hkv
  · rename_i hhit
    split at hstep
    · cases hstep
    · rename_i bdata hbdata
      rw [(pass1_record_shape _ _ _ _ _ _ _ _ _ hstep).1] at hkv
      rcases List.mem_append.mp hkv with h2 | h2
      · exact Or.inl h2
      · have hk2 : kv = ((bhash, frec.file_offset, frec.file_size),
            H ((bdata.drop frec.file_offset).take frec.file_size)) := by
          simpa using h2
        refine Or.inr ?_
        rw [hk2]
        exact bemTruthy_none hhit

/-- Every extent tuple the first pass over a bundle queues is for a key
whose extent-map lookup came back falsy. -/
theorem pass1_frecs_puts (H : List Nat → List Nat) (decomp : List Nat → Nat → List Nat)
    (store : StoreState) (bem : ExtKey → Option (List Nat)) (pht : PathHashTable)
    (bid : Nat) (bhash : List Nat) (P : ExtKey → Prop)
    (hbem : ∀ k, (bem k = none ∨ bem k = some []) → P k) :
    ∀ (frecs : List FileRecord) (cache : Option (List Nat))
      (newBem : List (ExtKey × List Nat)) (found : List (List Nat × (Nat × Nat × Nat)))
      (rows : List IndexRow)
      (out : Option (List Nat) × List (ExtKey × List Nat) ×
        List (List Nat × (Nat × Nat × Nat)) × List IndexRow),
      (∀ kv ∈ newBem, P kv.1) →
      pass1_frecs H decomp store bem pht bid bhash frecs cache newBem found rows = some out →
      ∀ kv ∈ out.2.1, P kv.1 := by
  intro frecs
  induction frecs with
  | nil =>
    intro cache newBem found rows out hin hrun kv hkv
    unfold pass1_frecs at hrun
    cases hrun
    exact hin kv hkv
  | cons frec rest ih =>
    intro cache newBem found rows out hin hrun kv hkv
    unfold pass1_frecs at hrun
    split at hrun
    · cases hrun
    · rename_i step cache2 newBem2 found2 rows2 hstep
      refine ih cache2 newBem2 found2 rows2 out ?_ hrun kv hkv
      intro kv2 hkv2
      rcases pass1_step_puts H decomp store bem pht bid bhash frec cache newBem found
          rows _ hstep kv2 hkv2 with h2 | h2
      · exact hin kv2 h2
      · exact hbem kv2.1 h2

/-- A falsy view through the run's overlay traces back to a key the
database either never knew, knew as empty, or that an earlier falsy-lookup
put wrote. -/
theorem bemView_falsy (bemBase : ExtKey → Option (List Nat))
    (over : List (ExtKey × List Nat)) (k : ExtKey)
    (hover : ∀ kv ∈ over, bemMissKey bemBase kv.1)
    (h : bemView bemBase over k = none ∨ bemView bemBase over k = some []) :
    bemMissKey bemBase k := by
  unfold bemView at h
  cases halo : alookup over.reverse k with
  | none =>
    rw [halo] at h
    exact h
  | some v =>
    rw [halo] at h
    rcases h with h | h
    · cases h
    · have hv : v = [] := by simpa using h
      subst hv
      have hmem : (k, ([] : List Nat)) ∈ over := List.mem_reverse.mp (alookup_mem halo)
      exact hover _ hmem

/-- Every extent tuple the first pass over a whole group queues is for a
key the extent map at run start did not usefully know. -/
theorem pass1_bids_puts (H : List Nat → List Nat) (decomp : List Nat → Nat → List Nat)
    (store : StoreState) (bem : ExtKey → Option (List Nat)) (pht : PathHashTable)
    (bundles : List BundleRecord) (bundle_by_path : List (List Nat × List Nat))
    (l2b : List (List FileRecord)) (P : ExtKey → Prop)
    (hbem : ∀ k, (bem k = none ∨ bem k = some []) → P k) :
    ∀ (membs : List Nat) (st : GroupState) (out : GroupState),
      (∀ kv ∈ st.new_bem, P kv.1) →
      pass1_bids H decomp store bem pht bundles bundle_by_path l2b membs st = some out →
      ∀ kv ∈ out.new_bem, P kv.1 := by
  intro membs
  induction membs with
  | nil =>
    intro st out hin hrun kv hkv
    unfold pass1_bids at hrun
    cases hrun
    exact hin kv hkv
  | cons bid rest ih =>
    intro st out hin hrun kv hkv
    unfold pass1_bids at hrun
    split at hrun
    · cases hrun
    · rename_i brec hbrec
      split at hrun
      · cases hrun
      · rename_i frecs hfrecs
        split at hrun
        · cases hrun
        · rename_i bhash hbhash
          split at hrun
          · cases hrun
          · rename_i res cache newBem found rows hfr
            refine ih _ out ?_ hrun kv hkv
            intro kv2 hkv2
            exact pass1_frecs_puts H decomp store bem pht bid bhash P hbem frecs none
              st.new_bem st.found st.rows _ hin hfr kv2 hkv2

/-- Every extent tuple one group iteration commits extends the overlay with
keys the extent map at run start did not usefully know. -/
theorem process_group_puts (H : List Nat → List Nat)
    (decomp : List Nat → Nat → List Nat) (pht : PathHashTable)
    (bundles : List BundleRecord) (bundle_by_path : List (List Nat × List Nat))
    (l2b : List (List FileRecord)) (bemBase : ExtKey → Option (List Nat))
    (membs : List Nat) (bemOver : List (ExtKey × List Nat)) (store : StoreState)
    (q : QueueState)
    (out : List (ExtKey × List Nat) × StoreState × QueueState ×
      List IndexRow × List (List Nat × List Nat))
    (hover : ∀ kv ∈ bemOver, bemMissKey bemBase kv.1)
    (hrun : process_group H decomp pht bundles bundle_by_path l2b bemBase membs
      bemOver store q = some out) :
    ∀ kv ∈ out.1, bemMissKey bemBase kv.1 := by
  unfold process_group at hrun
  simp only [Option.bind_eq_bind, Option.bind_eq_some] at hrun
  obtain ⟨st, hst, hrun⟩ := hrun
  obtain ⟨work, hwork, hrun⟩ := hrun
  obtain ⟨p2, hp2, hrun⟩ := hrun
  obtain ⟨d2, q2, store2, ups2⟩ := p2
  have hstall : ∀ kv ∈ st.new_bem, bemMissKey bemBase kv.1 := by
    intro kv hkv
    refine pass1_bids_puts H decomp store (bemView bemBase bemOver) pht bundles
      bundle_by_path l2b (bemMissKey bemBase) ?_ membs (GroupState.mk [] [] [] [])
      st ?_ hst kv hkv
    · intro k hk
      exact bemView_falsy bemBase bemOver k hover hk
    · intro kv2 hkv2
      simp at hkv2
  have hout : out.1 = bemOver ++ st.new_bem := by
    simp only at hrun
    cases hrun
    rfl
  rw [hout]
  intro kv hkv
  rcases List.mem_append.mp hkv with h2 | h2
  · exact hover kv h2
  · exact hstall kv h2

/-- Every extent tuple the whole group loop commits is for a key the extent
map at run start did not usefully know. -/
theorem process_groups_puts (H : List Nat → List Nat)
    (decomp : List Nat → Nat → List Nat) (pht : PathHashTable)
    (bundles : List BundleRecord) (bundle_by_path : List (List Nat × List Nat))
    (l2b : List (List FileRecord)) (bemBase : ExtKey → Option (List Nat)) :
    ∀ (groups : List (List Nat × Nat × Nat)) (bemOver : List (ExtKey × List Nat))
      (store : StoreState) (q : QueueState) (rows : List IndexRow)
      (ups : List (List Nat × List Nat))
      (out : List (ExtKey × List Nat) × StoreState × QueueState ×
        List IndexRow × List (List Nat × List Nat)),
      (∀ kv ∈ bemOver, bemMissKey bemBase kv.1) →
      process_groups H decomp pht bundles bundle_by_path l2b bemBase groups
        bemOver store q rows ups = some out →
      ∀ kv ∈ out.1, bemMissKey bemBase kv.1 := by
  intro groups
  induction groups with
  | nil =>
    intro bemOver store q rows ups out hover hrun kv hkv
    unfold process_groups at hrun
    cases hrun
    exact hover kv hkv
  | cons grp rest ih =>
    obtain ⟨membs, gs, gc⟩ := grp
    intro bemOver store q rows ups out hover hrun kv hkv
    unfold process_groups at hrun
    simp only [Option.bind_eq_bind, Option.bind_eq_some] at hrun
    obtain ⟨p1, hpg, hrun⟩ := hrun
    obtain ⟨bemOver2, store2, q2, nr, nu⟩ := p1
    have hover2 := process_group_puts H decomp pht bundles bundle_by_path l2b
      bemBase membs bemOver store q _ hover hpg
    exact ih bemOver2 store2 q2 (rows ++ nr) (ups ++ nu) out hover2 hrun kv hkv

/-- Every extent tuple a successful bundled ingest writes is for a key the
extent map at run start did not usefully know: a known (truthy) entry is
never overwritten. -/
theorem ingest_bundled_puts (H : List Nat → List Nat)
    (decomp : List Nat → Nat → List Nat) (rows : List LooseRow)
    (storeBase : List Nat → Option (List Nat)) (bemBase : ExtKey → Option (List Nat))
    (fx : Effects)
    (hrun : ingest_bundled H decomp rows storeBase bemBase = some fx) :
    ∀ kv ∈ fx.bemPuts, bemMissKey bemBase kv.1 := by
  unfold ingest_bundled at hrun
  cases hscan : scanLoose rows with
  | mk addr bbp =>
    rw [hscan] at hrun
    cases addr with
    | none =>
      simp only at hrun
      cases hrun
      intro kv hkv
      simp at hkv
    | some a =>
      simp only at hrun
      by_cases ha : a = []
      · rw [if_pos ha] at hrun
        cases hrun
        intro kv hkv
        simp at hkv
      · rw [if_neg ha] at hrun
        simp only [Option.bind_eq_bind, Option.bind_eq_some] at hrun
        obtain ⟨indexData, _hid, hrun⟩ := hrun
        obtain ⟨index, _hix, hrun⟩ := hrun
        obtain ⟨l2b, _hl2b, hrun⟩ := hrun
        obtain ⟨pht, _hpht, hrun⟩ := hrun
        obtain ⟨pg, hpg, hrun⟩ := hrun
        obtain ⟨bemOver, store2, q2, rows2, ups2⟩ := pg
        have hfx : fx.bemPuts = bemOver := by
          simp only at hrun
          cases hrun
          rfl
        rw [hfx]
        refine process_groups_puts H decomp pht index.bundles bbp l2b bemBase _
          [] _ _ [] [] _ ?_ hpg
        intro kv hkv
        simp at hkv

/-- C3 amended: when the extent map returns a cached (truthy) digest, the
bundled ingest never overwrites that entry — extent-map writes happen only
for extents whose lookup failed; a stale cached digest's object is instead
re-sliced from the bundle and uploaded under the cached digest, without any
re-hash (exhibited concretely by the stale-extent run of the
counterexample). -/
theorem c3_stale_entry_not_overwritten (H : List Nat → List Nat)
    (decomp : List Nat → Nat → List Nat) (rows : List LooseRow)
    (storeBase : List Nat → Option (List Nat)) (bemBase : ExtKey → Option (List Nat))
    (fx : Effects) (k : ExtKey) (v : List Nat)
    (hrun : ingest_bundled H decomp rows storeBase bemBase = some fx)
    (hbase : bemBase k = some v) (hv : v ≠ []) :
    bemView bemBase fx.bemPuts k = some v := by
  have hall := ingest_bundled_puts H decomp rows storeBase bemBase fx hrun
  have hnone : alookup fx.bemPuts.reverse k = none := by
    refine alookup_none ?_
    intro kv hkv hk
    have hmiss := hall kv (List.mem_reverse.mp hkv)
    rw [hk] at hmiss
    rcases hmiss with h | h
    · rw [hbase] at h; cases h
    · rw [hbase] at h
      exact hv (by simpa using h)
  simp [bemView, hnone, hbase]

set_option maxRecDepth 40000 in
/-- C3 as stated is false on the code: with the only inner file's extent
cached as digest c3D and c3D absent from the store, the run succeeds,
re-slices the bundle and uploads those bytes under the cached digest c3D,
but writes nothing to the extent map — the entry still holds c3D, not the
hash of the re-sliced bytes as the claim requires. -/
theorem c3_stale_entry_counterexample :
    ingest_bundled c3H c3dec c3rows c3storeBase c3bemBase = some c3fx
    ∧ c3bemBase (c3B, 0, 2) = some c3D
    ∧ (StoreState.mk c3storeBase []).read c3D = none
    ∧ c3fx.bemPuts = []
    ∧ bemView c3bemBase c3fx.bemPuts (c3B, 0, 2) = some c3D
    ∧ c3D ≠ c3H c3slice
    ∧ c3fx.uploads = [(c3D, c3slice)] := by
  refine ⟨by decide, by decide, by decide, by decide, by decide, by decide, by decide⟩

set_option maxRecDepth 40000 in
theorem c3_stale_entry_not_overwritten_witness :
    bemView c3bemBase c3fx.bemPuts (c3B, 0, 2) = some c3D :=
  c3_stale_entry_not_overwritten c3H c3dec c3rows c3storeBase c3bemBase c3fx
    (c3B, 0, 2) c3D (by decide) (by decide) (by decide)

/-! ## C6 -/

/-- The dict-filling loop never touches the chosen hashers. -/
theorem phtFill_fields (ih : HasherKind) (oh : Option HasherKind) :
    ∀ (paths : List (List Nat)) (t : PathHashTable),
      (phtFill ih oh paths t).ihasher = t.ihasher ∧
      (phtFill ih oh paths t).ohasher = t.ohasher := by
  intro paths
  induction paths with
  | nil => intro t; exact ⟨rfl, rfl⟩
  | cons s rest ihp => intro t; exact ihp _

/-- The dict-filling loop keeps the two dicts aligned: both are always
assigned together at the same key, the path and its output fingerprint. -/
theorem phtFill_aligned (ih : HasherKind) (oh : Option HasherKind) :
    ∀ (paths : List (List Nat)) (t : PathHashTable),
      phtAligned ih oh t → phtAligned ih oh (phtFill ih oh paths t) := by
  intro paths
  induction paths with
  | nil => intro t ht; exact ht
  | cons s rest ihp =>
    intro t ht
    refine ihp _ ?_
    intro k p hp
    rw [alookup_dictInsert] at hp ⊢
    by_cases hk : k = hash_file_path ih s
    · rw [if_pos hk] at hp ⊢
      have hps : s = p := by simpa using hp
      subst hps
      cases oh with
      | some k2 => rfl
      | none => rfl
    · rw [if_neg hk] at hp ⊢
      exact ht k p hp

/-- What an ok result of the path-table generation looks like: the hashers
follow the probed rep hashes in order (legacy first), and the dicts are
aligned. -/
theorem gen_pht_spec (decomp : List Nat → Nat → List Nat) (index : BundleIndex)
    (pht : PathHashTable)
    (h : generate_path_hash_table decomp index = Except.ok pht) :
    ((legacy_hash_dir_path artBytes ∈ repHashes index ∧
        pht.ihasher = HasherKind.legacy ∧ pht.ohasher = some HasherKind.modern) ∨
      (legacy_hash_dir_path artBytes ∉ repHashes index ∧
        modern_hash_dir_path artBytes ∈ repHashes index ∧
        pht.ihasher = HasherKind.modern ∧ pht.ohasher = none)) ∧
    phtAligned pht.ihasher pht.ohasher pht := by
  unfold generate_path_hash_table at h
  split at h
  · cases h
  · rename_i pc hpc
    dsimp only at h
    by_cases h1 : (index.path_reps.map (fun x => x.hash)).contains
        (legacy_hash_dir_path artBytes)
    · rw [if_pos h1] at h
      simp only at h
      split at h
      · cases h
      · rename_i pathLists hmapM
        cases h
        have hmem : legacy_hash_dir_path artBytes ∈ repHashes index := by
          rw [repHashes, ← List.elem_iff]
          exact h1
        have hf := phtFill_fields HasherKind.legacy (some HasherKind.modern)
          pathLists.flatten (PathHashTable.mk [] [] HasherKind.legacy
            (some HasherKind.modern))
        refine ⟨Or.inl ⟨hmem, hf.1, hf.2⟩, ?_⟩
        rw [hf.1, hf.2]
        refine phtFill_aligned _ _ _ _ ?_
        intro k p hp
        simp [alookup] at hp
    · rw [if_neg h1] at h
      by_cases h2 : (index.path_reps.map (fun x => x.hash)).contains
          (modern_hash_dir_path artBytes)
      · rw [if_pos h2] at h
        simp only at h
        split at h
        · cases h
        · rename_i pathLists hmapM
          cases h
          have hmem1 : legacy_hash_dir_path artBytes ∉ repHashes index := by
            rw [repHashes, ← List.elem_iff]
            exact h1
          have hmem2 : modern_hash_dir_path artBytes ∈ repHashes index := by
            rw [repHashes, ← List.elem_iff]
            exact h2
          have hf := phtFill_fields HasherKind.modern none pathLists.flatten
            (PathHashTable.mk [] [] HasherKind.modern none)
          refine ⟨Or.inr ⟨hmem1, hmem2, hf.1, hf.2⟩, ?_⟩
          rw [hf.1, hf.2]
          refine phtFill_aligned _ _ _ _ ?_
          intro k p hp
          simp [alookup] at hp
      · rw [if_neg h2] at h
        cases h

/-- An aligned table whose output hashing is the modern variant stamps
every row it sourced with the murmur fingerprint of the row's path. -/
theorem aligned_row_murmur (pht : PathHashTable) (row : IndexRow)
    (haligned : phtAligned pht.ihasher pht.ohasher pht)
    (hmodern : pht.ohasher = some HasherKind.modern ∨
      (pht.ihasher = HasherKind.modern ∧ pht.ohasher = none))
    (hrow : rowFromPht pht row) :
    row.phash = murmur2_64a (asciiLower row.path) modernSeed := by
  obtain ⟨k, hpath, hohash⟩ := hrow
  have := haligned k row.path hpath
  rw [hohash] at this
  have heq : row.phash = outHash pht.ihasher pht.ohasher row.path := by
    simpa using this
  rcases hmodern with h | ⟨h1, h2⟩
  · rw [heq, h]
    rfl
  · rw [heq, h2, h1]
    rfl

/-- Every row a first-pass step appends comes from the path table. -/
theorem pass1_step_rows (H : List Nat → List Nat) (decomp : List Nat → Nat → List Nat)
    (store : StoreState) (bem : ExtKey → Option (List Nat)) (pht : PathHashTable)
    (bid : Nat) (bhash : List Nat) (frec : FileRecord)
    (cache : Option (List Nat)) (newBem : List (ExtKey × List Nat))
    (found : List (List Nat × (Nat × Nat × Nat))) (rows : List IndexRow)
    (out : Option (List Nat) × List (ExtKey × List Nat) ×
      List (List Nat × (Nat × Nat × Nat)) × List IndexRow)
    (R : IndexRow → Prop) (hR : ∀ row, rowFromPht pht row → R row)
    (hin : ∀ row ∈ rows, R row)
    (hstep : pass1_step H decomp store bem pht bid bhash frec cache newBem found rows
      = some out) :
    ∀ row ∈ out.2.2.2, R row := by
  intro row hrow
  unfold pass1_step at hstep
  split at hstep
  · obtain ⟨_, row2, hrows, hfrom⟩ := pass1_record_shape _ _ _ _ _ _ _ _ _ hstep
    rw [hrows] at hrow
    rcases List.mem_append.mp hrow with h2 | h2
    · exact hin row h2
    · have : row = row2 := by simpa using h2
      subst this
      exact hR row hfrom
  · split at hstep
    · cases hstep
    · obtain ⟨_, row2, hrows, hfrom⟩ := pass1_record_shape _ _ _ _ _ _ _ _ _ hstep
      rw [hrows] at hrow
      rcases List.mem_append.mp hrow with h2 | h2
      · exact hin row h2
      · have : row = row2 := by simpa using h2
        subst this
        exact hR row hfrom

/-- Every row a first-pass frec loop appends comes from the path table. -/
theorem pass1_frecs_rows (H : List Nat → List Nat) (decomp : List Nat → Nat → List Nat)
    (store : StoreState) (bem : ExtKey → Option (List Nat)) (pht : PathHashTable)
    (bid : Nat) (bhash : List Nat) (R : IndexRow → Prop)
    (hR : ∀ row, rowFromPht pht row → R row) :
    ∀ (frecs : List FileRecord) (cache : Option (List Nat))
      (newBem : List (ExtKey × List Nat)) (found : List (List Nat × (Nat × Nat × Nat)))
      (rows : List IndexRow)
      (out : Option (List Nat) × List (ExtKey × List Nat) ×
        List (List Nat × (Nat × Nat × Nat)) × List IndexRow),
      (∀ row ∈ rows, R row) →
      pass1_frecs H decomp store bem pht bid bhash frecs cache newBem found rows
        = some out →
      ∀ row ∈ out.2.2.2, R row := by
  intro frecs
  induction frecs with
  | nil =>
    intro cache newBem found rows out hin hrun row hrow
    unfold pass1_frecs at hrun
    cases hrun
    exact hin row hrow
  | cons frec rest ih =>
    intro cache newBem found rows out hin hrun row hrow
    unfold pass1_frecs at hrun
    split at hrun
    · cases hrun
    · rename_i step cache2 newBem2 found2 rows2 hstep
      refine ih cache2 newBem2 found2 rows2 out ?_ hrun row hrow
      intro row2 hrow2
      exact pass1_step_rows H decomp store bem pht bid bhash frec cache newBem found
        rows _ R hR hin hstep row2 hrow2

/-- Every row a first-pass group loop appends comes from the path table. -/
theorem pass1_bids_rows (H : List Nat → List Nat) (decomp : List Nat → Nat → List Nat)
    (store : StoreState) (bem : ExtKey → Option (List Nat)) (pht : PathHashTable)
    (bundles : List BundleRecord) (bundle_by_path : List (List Nat × List Nat))
    (l2b : List (List FileRecord)) (R : IndexRow → Prop)
    (hR : ∀ row, rowFromPht pht row → R row) :
    ∀ (membs : List Nat) (st : GroupState) (out : GroupState),
      (∀ row ∈ st.rows, R row) →
      pass1_bids H decomp store bem pht bundles bundle_by_path l2b membs st = some out →
      ∀ row ∈ out.rows, R row := by
  intro membs
  induction membs with
  | nil =>
    intro st out hin hrun row hrow
    unfold pass1_bids at hrun
    cases hrun
    exact hin row hrow
  | cons bid rest ih =>
    intro st out hin hrun row hrow
    unfold pass1_bids at hrun
    split at hrun
    · cases hrun
    · rename_i brec hbrec
      split at hrun
      · cases hrun
      · rename_i frecs hfrecs
        split at hrun
        · cases hrun
        · rename_i bhash hbhash
          split at hrun
          · cases hrun
          · rename_i res cache newBem found rows hfr
            refine ih _ out ?_ hrun row hrow
            intro row2 hrow2
            exact pass1_frecs_rows H decomp store bem pht bid bhash R hR frecs none
              st.new_bem st.found st.rows _ hin hfr row2 hrow2

/-- Every row one group iteration writes comes from the path table. -/
theorem process_group_rows (H : List Nat → List Nat)
    (decomp : List Nat → Nat → List Nat) (pht : PathHashTable)
    (bundles : List BundleRecord) (bundle_by_path : List (List Nat × List Nat))
    (l2b : List (List FileRecord)) (bemBase : ExtKey → Option (List Nat))
    (membs : List Nat) (bemOver : List (ExtKey × List Nat)) (store : StoreState)
    (q : QueueState)
    (out : List (ExtKey × List Nat) × StoreState × QueueState ×
      List IndexRow × List (List Nat × List Nat))
    (hrun : process_group H decomp pht bundles bundle_by_path l2b bemBase membs
      bemOver store q = some out) :
    ∀ row ∈ out.2.2.2.1, rowFromPht pht row := by
  unfold process_group at hrun
  simp only [Option.bind_eq_bind, Option.bind_eq_some] at hrun
  obtain ⟨st, hst, hrun⟩ := hrun
  obtain ⟨work, hwork, hrun⟩ := hrun
  obtain ⟨p2, hp2, hrun⟩ := hrun
  obtain ⟨d2, q2, store2, ups2⟩ := p2
  have hout : out.2.2.2.1 = st.rows := by
    simp only at hrun
    cases hrun
    rfl
  rw [hout]
  refine pass1_bids_rows H decomp store (bemView bemBase bemOver) pht bundles
    bundle_by_path l2b (rowFromPht pht) (fun row hr => hr) membs
    (GroupState.mk [] [] [] []) st ?_ hst
  intro row hrow
  simp at hrow

/-- Every row the whole group loop writes beyond its starting accumulator
comes from the path table. -/
theorem process_groups_rows (H : List Nat → List Nat)
    (decomp : List Nat → Nat → List Nat) (pht : PathHashTable)
    (bundles : List BundleRecord) (bundle_by_path : List (List Nat × List Nat))
    (l2b : List (List FileRecord)) (bemBase : ExtKey → Option (List Nat)) :
    ∀ (groups : List (List Nat × Nat × Nat)) (bemOver : List (ExtKey × List Nat))
      (store : StoreState) (q : QueueState) (rows : List IndexRow)
      (ups : List (List Nat × List Nat))
      (out : List (ExtKey × List Nat) × StoreState × QueueState ×
        List IndexRow × List (List Nat × List Nat)),
      process_groups H decomp pht bundles bundle_by_path l2b bemBase groups
        bemOver store q rows ups = some out →
      ∀ row ∈ out.2.2.2.1, row ∈ rows ∨ rowFromPht pht row := by
  intro groups
  induction groups with
  | nil =>
    intro bemOver store q rows ups out hrun row hrow
    unfold process_groups at hrun
    cases hrun
    exact Or.inl hrow
  | cons grp rest ih =>
    obtain ⟨membs, gs, gc⟩ := grp
    intro bemOver store q rows ups out hrun row hrow
    unfold process_groups at hrun
    simp only [Option.bind_eq_bind, Option.bind_eq_some] at hrun
    obtain ⟨p1, hpg, hrun⟩ := hrun
    obtain ⟨bemOver2, store2, q2, nr, nu⟩ := p1
    rcases ih bemOver2 store2 q2 (rows ++ nr) (ups ++ nu) out hrun row hrow with h2 | h2
    · rcases List.mem_append.mp h2 with h3 | h3
      · exact Or.inl h3
      · exact Or.inr (process_group_rows H decomp pht bundles bundle_by_path l2b
          bemBase membs bemOver store q _ hpg row h3)
    · exact Or.inr h2

/-- C6: the path-table detection probes hash_dir(Art) under both variants,
legacy first. When the legacy FNV value occurs among the rep hashes, the
input hasher is legacy and the output hasher is modern, and every phash the
group loop then emits in the bundled index equals MurmurHash2-64A of the
lowercased path under seed 0x1337B33F; when only the modern value occurs,
both hashers are the modern one (and the emitted phash is that same murmur
fingerprint); when neither occurs (and the path data itself parses), the
ingest fails with the unknown-hash-algorithm error. -/
theorem c6_hash_algorithm_detection (decomp : List Nat → Nat → List Nat)
    (index : BundleIndex) :
    (legacy_hash_dir_path artBytes ∈ repHashes index →
      ∀ pht, generate_path_hash_table decomp index = Except.ok pht →
        pht.ihasher = HasherKind.legacy ∧ pht.ohasher = some HasherKind.modern ∧
        phtEmitsMurmur pht)
    ∧ (legacy_hash_dir_path artBytes ∉ repHashes index →
        modern_hash_dir_path artBytes ∈ repHashes index →
        ∀ pht, generate_path_hash_table decomp index = Except.ok pht →
          pht.ihasher = HasherKind.modern ∧ pht.ohasher = none ∧
          phtEmitsMurmur pht)
    ∧ (legacy_hash_dir_path artBytes ∉ repHashes index →
        modern_hash_dir_path artBytes ∉ repHashes index →
        ∀ pc, parseCompressedBundle index.path_comp = some pc →
          generate_path_hash_table decomp index
            = Except.error PhtError.unknownHashAlgorithm) := by
  have hemits : ∀ pht : PathHashTable,
      phtAligned pht.ihasher pht.ohasher pht →
      (pht.ohasher = some HasherKind.modern ∨
        (pht.ihasher = HasherKind.modern ∧ pht.ohasher = none)) →
      phtEmitsMurmur pht := by
    intro pht haligned hmodern
    intro H2 decomp2 bundles bundle_by_path l2b bemBase groups bemOver store q rows
      ups out hrun row hrow
    rcases process_groups_rows H2 decomp2 pht bundles bundle_by_path l2b bemBase
      groups bemOver store q rows ups out hrun row hrow with h2 | h2
    · exact Or.inl h2
    · exact Or.inr (aligned_row_murmur pht row haligned hmodern h2)
  refine ⟨?_, ?_, ?_⟩
  · intro hmem pht hok
    obtain ⟨hcase, haligned⟩ := gen_pht_spec decomp index pht hok
    rcases hcase with ⟨_, hi, ho⟩ | ⟨hnot, _⟩
    · exact ⟨hi, ho, hemits pht haligned (Or.inl ho)⟩
    · exact absurd hmem hnot
  · intro hnot hmem pht hok
    obtain ⟨hcase, haligned⟩ := gen_pht_spec decomp index pht hok
    rcases hcase with ⟨hmem1, _⟩ | ⟨_, _, hi, ho⟩
    · exact absurd hmem1 hnot
    · exact ⟨hi, ho, hemits pht haligned (Or.inr ⟨hi, ho⟩)⟩
  · intro hnot1 hnot2 pc hpc
    unfold generate_path_hash_table
    rw [hpc]
    have h1 : (index.path_reps.map (fun x => x.hash)).contains
        (legacy_hash_dir_path artBytes) = false := by
      rw [← Bool.not_eq_true, List.elem_iff]
      rw [repHashes] at hnot1
      exact hnot1
    have h2 : (index.path_reps.map (fun x => x.hash)).contains
        (modern_hash_dir_path artBytes) = false := by
      rw [← Bool.not_eq_true, List.elem_iff]
      rw [repHashes] at hnot2
      exact hnot2
    simp only [h1, h2, Bool.false_eq_true, if_false]

/-- An Except whose toOption is a some is that very ok value. -/
theorem except_ok_of_toOption {e a : Type} (x : Except e a) (v : a)
    (h : x.toOption = some v) : x = Except.ok v := by
  cases x <;> simp [Except.toOption] at h ⊢
  exact h

set_option maxRecDepth 40000 in
theorem c6_hash_algorithm_detection_witness :
    generate_path_hash_table (fun d _ => d)
      (BundleIndex.mk [] [] [PathRep.mk (legacy_hash_dir_path artBytes) 0 0 0]
        (List.replicate 60 0))
      = Except.ok (PathHashTable.mk [] [] HasherKind.legacy (some HasherKind.modern))
    ∧ (PathHashTable.mk [] [] HasherKind.legacy (some HasherKind.modern)).ihasher
        = HasherKind.legacy := by
  have hok := except_ok_of_toOption
    (generate_path_hash_table (fun d _ => d)
      (BundleIndex.mk [] [] [PathRep.mk (legacy_hash_dir_path artBytes) 0 0 0]
        (List.replicate 60 0)))
    (PathHashTable.mk [] [] HasherKind.legacy (some HasherKind.modern)) (by decide)
  exact ⟨hok,
    ((c6_hash_algorithm_detection (fun d _ => d)
      (BundleIndex.mk [] [] [PathRep.mk (legacy_hash_dir_path artBytes) 0 0 0]
        (List.replicate 60 0))).1 (by decide) _ hok).1⟩

end Krangler
